import Mathlib

/-!
# The copy pipeline and the enumeration of `acp.go`

The development follows `src/acp.go`: the enumeration of the sources (`Walk`,
`WalkSymlinks`, the first part of `main`) over a file system given by its
operating-system calls, and the two goroutines `readFiles` and `writeFiles` as
a step relation over the shared `CopyStruct` and the four channels of capacity
one.

Conventions of the embedding:

* `log.Fatalln` and `os.Exit` end the process: a function that reaches one
  returns `none`. The calls on the destination made by the two goroutines are
  recorded in a log and taken to succeed; where the program exits on an error
  instead, its run is the beginning of a run of the embedding.
* A goroutine moves from one channel operation to the next in one step; a
  receive on an empty channel and a send on a full one have no step.
* The `int64` fields `TotalSize` and `CopiedBytes` wrap around on addition
  (`int64`); the `int` values (`readlen`, `BufSize`, indices), bounded by the
  buffer and the work list, are integers. A buffer holds the bytes of the last
  read, which are the bytes `writeFiles` writes from it.
* The progress report (`reportProgress`, `convSize`, `BytesPrinted`, the
  printed lines) has no effect on the copy and is left out.
-/

namespace Acp

/-- Components of a path between slashes (`strings.Split(p, "/")`). -/
def splitSlash : List Char → List (List Char)
  | [] => [[]]
  | c :: cs =>
    if c = '/' then [] :: splitSlash cs
    else
      match splitSlash cs with
      | [] => [[c]]
      | w :: ws => (c :: w) :: ws

/-- One step of Go `path.Clean` on the components kept so far (last first):
empty and `.` components are dropped, `..` removes the component before it,
is dropped at the root, and is kept after another `..` or at the start. -/
def cleanPush (rooted : Bool) (stack : List (List Char)) (comp : List Char) :
    List (List Char) :=
  if comp = [] ∨ comp = ['.'] then stack
  else if comp = ['.', '.'] then
    match stack with
    | [] => if rooted then [] else [comp]
    | top :: below => if top = ['.', '.'] then comp :: stack else below
  else comp :: stack

/-- Components joined with slashes. -/
def joinSlash : List (List Char) → List Char
  | [] => []
  | [w] => w
  | w :: ws => w ++ '/' :: joinSlash ws

/-- Go `path.Clean` on the characters of a path. -/
def cleanChars (p : List Char) : List Char :=
  let rooted := p.head? = some '/'
  let stack := (splitSlash p).foldl (cleanPush rooted) []
  let body := joinSlash stack.reverse
  if rooted then '/' :: body
  else if body = [] then ['.'] else body

/-- Go `path.Clean`. -/
def Clean (p : String) : String := String.mk (cleanChars p.data)

/-- Go `path.Join` and, on Unix, `filepath.Join` of two elements: empty
elements are ignored and the result is cleaned. -/
def Join (a b : String) : String :=
  if a = "" ∧ b = "" then ""
  else if a = "" then Clean b
  else if b = "" then Clean a
  else Clean (a ++ "/" ++ b)

/-- The first occurrence of `old` removed. -/
def replaceFirst (old : List Char) : List Char → List Char
  | [] => if old = [] then [] else []
  | c :: cs =>
    if old.isPrefixOf (c :: cs) then (c :: cs).drop old.length
    else c :: replaceFirst old cs

/-- Go `strings.Replace(s, old, "", 1)`. -/
def Replace1 (s old : String) : String := String.mk (replaceFirst old.data s.data)

/-- Go `path.Base`: the last element of the path, trailing slashes removed. -/
def Base (p : String) : String :=
  if p = "" then "."
  else
    let q := (p.data.reverse.dropWhile (fun c => c = '/')).reverse
    let e := ((splitSlash q).getLast?).getD []
    if e = [] then "/" else String.mk e

/-- Go `path.Dir`: everything up to the last slash, cleaned. -/
def Dir (p : String) : String :=
  Clean (String.mk (p.data.reverse.dropWhile (fun c => c ≠ '/')).reverse)

/-- Go `filepath.IsAbs` on Unix. -/
def IsAbs (p : String) : Bool := p.data.head? = some '/'

/-- Go `filepath.Abs` with the working directory `wd`. -/
def Abs (wd p : String) : String := if IsAbs p then Clean p else Join wd p

/-! ## File metadata and the source file system -/

/-- The type bits of an `os.FileMode` as `Lstat` reports them. -/
inductive FileKind
  | regular
  | dir
  | symlink
  | other
  deriving DecidableEq, Repr

/-- The parts of `os.FileInfo` the program reads. -/
structure FileInfo where
  kind : FileKind
  size : Nat
  perm : Nat
  deriving DecidableEq, Repr

/-- `info.Mode().IsRegular()`. -/
def FileInfo.IsRegular (i : FileInfo) : Bool := i.kind = FileKind.regular

/-- `info.IsDir()`. -/
def FileInfo.IsDir (i : FileInfo) : Bool := i.kind = FileKind.dir

/-- `info.Mode()&os.ModeSymlink != 0`. -/
def FileInfo.IsSymlink (i : FileInfo) : Bool := i.kind = FileKind.symlink

/-- The operating-system calls of the enumeration, as functions of the working
directory and the path; `none` is an error return. `readFile` is the content
`os.Open` + `Read` deliver for a source path. -/
structure FileSystem where
  stat : String → String → Option FileInfo
  lstat : String → String → Option FileInfo
  readlink : String → String → Option String
  readDirNames : String → String → Option (List String)
  chdir : String → String → String
  readFile : String → String → List Nat

/-! ## Data model of `acp.go` -/

/-- The struct `Config`: the parsed options and positional arguments. -/
structure Config where
  ReportFileStartDone : Bool
  BufSize : Int
  PrintProgress : Int
  PrintRawNumbers : Bool
  OverridePermissions : Bool
  DeleteFirst : Bool
  PreserveSymlink : Bool
  Files : List String
  deriving DecidableEq, Repr

/-- The variable `TypeDir`. -/
def TypeDir : Nat := 1

/-- The variable `TypeFile`. -/
def TypeFile : Nat := 2

/-- The variable `TypeLink`. -/
def TypeLink : Nat := 3

/-- The struct `files`. `fStat` and `lStat` are set before an entry is
appended; `LinkFileLstat` stays `nil` (`none`) until `WalkSymlinks` sets it. -/
structure files where
  Source : String
  Destination : String
  Typ : Nat
  fStat : FileInfo
  lStat : FileInfo
  LinkFile : String
  LinkFileLstat : Option FileInfo
  LinkSource : String
  deriving DecidableEq, Repr

/-- The value of an integer as a Go `int64`: additions on `int64` wrap around
modulo 2^64 into the range from -2^63 to 2^63 - 1. -/
def int64 (x : Int) : Int :=
  (x + 9223372036854775808) % 18446744073709551616 - 9223372036854775808

/-- The struct `CopyStruct` without the progress-report fields (`TimePrinted`,
`BytesPrinted`, `TimeStart`) and the wait group. `TotalSize` and `CopiedBytes`
are `int64`: every addition to them goes through `int64`. A channel of capacity
one is the number of tokens queued on it. -/
structure CopyStruct where
  TotalSize : Int
  CopiedBytes : Int
  buffers : List Nat × List Nat
  readlen : Int × Int
  Conf : Config
  bufferFileNo : Nat × Nat
  Files : List files
  Concat : Bool
  r2w : Nat × Nat
  w2r : Nat × Nat
  deriving DecidableEq, Repr

/-! ## Enumeration: `Walk`, `WalkSymlinks`, `main` -/

/-- The callback passed to `filepath.Walk` (lines 189-214), called without
error; `none` is `log.Fatalln`. -/
def walkFn (fs : FileSystem) (wd source dest : String) (c : CopyStruct)
    (npath : String) (info : FileInfo) : Option CopyStruct :=
  let nFile : files :=
    { Source := npath, Destination := Join dest (Replace1 npath source), Typ := 0,
      fStat := info, lStat := info, LinkFile := "", LinkFileLstat := none,
      LinkSource := "" }
  if info.IsRegular then
    some { c with TotalSize := int64 (c.TotalSize + info.size),
                  Files := c.Files ++ [{ nFile with Typ := TypeFile }] }
  else if info.IsDir then
    some { c with Files := c.Files ++ [{ nFile with Typ := TypeDir }] }
  else if info.IsSymlink then
    match fs.readlink wd npath with
    | none => none
    | some l => some { c with Files := c.Files ++ [{ nFile with Typ := TypeLink, LinkSource := l }] }
  else none

/-- Go `filepath.walk`: the callback on `path`, then, for a directory, the
entries `filepath.Join(path, name)` in the order of `readDirNames`. Any error
reaches the callback, which exits. The fuel bounds the depth. -/
def walk (fs : FileSystem) (wd source dest : String) :
    Nat → CopyStruct → String → FileInfo → Option CopyStruct
  | 0, _, _, _ => none
  | fuel + 1, c, path, info =>
    if info.IsDir then
      match fs.readDirNames wd path with
      | none => none
      | some names =>
        match walkFn fs wd source dest c path info with
        | none => none
        | some c1 =>
          names.foldlM
            (fun acc name =>
              match fs.lstat wd (Join path name) with
              | none => none
              | some fi => walk fs wd source dest fuel acc (Join path name) fi)
            c1
    else walkFn fs wd source dest c path info

/-- Method `Walk` (lines 160-227). -/
def Walk (fs : FileSystem) (fuel : Nat) (wd : String) (c : CopyStruct)
    (source dest : String) : Option CopyStruct :=
  match fs.stat wd source with
  | none => none
  | some fStat =>
    let lStat := (fs.lstat wd source).getD fStat
    let file : files :=
      { Source := source, Destination := dest, Typ := 0, fStat := fStat, lStat := lStat,
        LinkFile := "", LinkFileLstat := none, LinkSource := "" }
    let classified : Option (files × CopyStruct) :=
      if lStat.IsRegular then
        some ({ file with Typ := TypeFile }, { c with TotalSize := int64 (c.TotalSize + fStat.size) })
      else if lStat.IsDir then
        some ({ file with Typ := TypeDir }, { c with Concat := false })
      else if lStat.IsSymlink then
        some ({ file with Typ := TypeLink, LinkSource := (fs.readlink wd source).getD "" },
              if c.Conf.PreserveSymlink then { c with Concat := false } else c)
      else none
    match classified with
    | none => none
    | some (file, c) =>
      if file.Typ = TypeDir then
        match fs.lstat wd source with
        | none => none
        | some info => walk fs wd source dest fuel c source info
      else
        match fs.lstat wd dest with
        | some l =>
          if l.IsDir then
            some { c with Files := c.Files ++
              [{ file with Destination := Join file.Destination (Base file.Source) }] }
          else some { c with Files := c.Files ++ [file] }
        | none => some { c with Files := c.Files ++ [file] }

/-- The loop of lines 236-246: follow the chain of links, changing the working
directory to the directory of each link. Result: working directory, `LinkFile`,
`LinkFileLstat`. -/
def resolveChain (fs : FileSystem) :
    Nat → String → String → FileInfo → Option (String × String × FileInfo)
  | 0, _, _, _ => none
  | fuel + 1, wd, linkFile, st =>
    if st.IsSymlink then
      let wd1 := fs.chdir wd (Dir linkFile)
      match fs.readlink wd1 (Base linkFile) with
      | none => none
      | some target =>
        match fs.lstat wd1 target with
        | none => none
        | some st1 => resolveChain fs fuel wd1 target st1
    else some (wd, linkFile, st)

/-- One iteration of the range loop of `WalkSymlinks` (lines 232-262) on the
entry `file` at index `i`. `wd` is the directory `os.Getwd` reports; the final
`os.Chdir(curr)` returns to it. -/
def walkSymlinksVisit (fs : FileSystem) (fuel : Nat) (wd : String) (i : Nat) (file : files)
    (c : CopyStruct) : Option CopyStruct :=
  if file.Typ = TypeLink then
    match resolveChain fs fuel wd file.Source file.lStat with
    | none => none
    | some (wd1, linkFile, linkFileLstat) =>
      let linkFile := Abs wd1 linkFile
      let file := { file with LinkFile := linkFile, LinkFileLstat := some linkFileLstat,
                              Source := linkFile }
      if linkFileLstat.IsDir then
        match Walk fs fuel wd { c with Concat := false } linkFile file.Destination with
        | none => none
        | some c1 => some { c1 with Files := c1.Files.set i { file with Typ := TypeDir } }
      else if linkFileLstat.IsRegular then
        some { c with TotalSize := int64 (c.TotalSize + linkFileLstat.size),
                      Files := c.Files.set i { file with Typ := TypeFile } }
      else if linkFileLstat.IsSymlink then
        some { c with Files := c.Files.set i file }
      else none
  else some c

/-- The range loop: it visits the entries the slice held when the loop began,
also when `Walk` appends to `c.Files` meanwhile. -/
def walkSymlinksLoop (fs : FileSystem) (fuel : Nat) (wd : String) :
    List files → Nat → CopyStruct → Option CopyStruct
  | [], _, c => some c
  | file :: rest, i, c =>
    match walkSymlinksVisit fs fuel wd i file c with
    | none => none
    | some c1 => walkSymlinksLoop fs fuel wd rest (i + 1) c1

/-- Method `WalkSymlinks` (lines 229-264). -/
def WalkSymlinks (fs : FileSystem) (fuel : Nat) (wd : String) (c : CopyStruct) :
    Option CopyStruct :=
  walkSymlinksLoop fs fuel wd c.Files 0 c

/-- The fresh `CopyStruct` of `main` with the parsed options. -/
def CopyStruct.new (conf : Config) : CopyStruct :=
  { TotalSize := 0, CopiedBytes := 0, buffers := ([], []), readlen := (0, 0), Conf := conf,
    bufferFileNo := (0, 0), Files := [], Concat := false, r2w := (0, 0), w2r := (1, 1) }

/-- The destination argument `Copy.Conf.Files[len(Copy.Conf.Files)-1]`. -/
def destArg (args : List String) : String := args.getLast?.getD ""

/-- Lines 89-109 of `main`: the checks of the options and the enumeration.
`conf.Files` is the result of `ParseArgs(os.Args)`, program name first; line 95
drops the program name. -/
def mainEnumerate (fs : FileSystem) (fuel : Nat) (wd : String) (conf : Config) :
    Option CopyStruct :=
  if conf.BufSize ≤ 0 then none
  else if conf.Files.length < 3 then none
  else
    let args := conf.Files.tail
    let c0 := { CopyStruct.new { conf with Files := args } with Concat := true }
    match args.dropLast.foldlM (fun c source => Walk fs fuel wd c source (destArg args)) c0 with
    | none => none
    | some c1 =>
      let resolved := if c1.Conf.PreserveSymlink = false then WalkSymlinks fs fuel wd c1
                      else some c1
      match resolved with
      | none => none
      | some c2 =>
        match fs.stat wd (destArg args) with
        | some fStat => if fStat.IsRegular then some c2 else some { c2 with Concat := false }
        | none => some c2

/-! ## A concrete file system given by a table of absolute paths -/

/-- What a path of the table names. -/
inductive Node
  | regular (content : List Nat)
  | dir (names : List String)
  | symlink (target : String)
  | other
  deriving DecidableEq, Repr

/-- The metadata `Lstat` reports for a node. -/
def Node.info : Node → FileInfo
  | .regular content => { kind := .regular, size := content.length, perm := 420 }
  | .dir _ => { kind := .dir, size := 4096, perm := 493 }
  | .symlink target => { kind := .symlink, size := target.length, perm := 511 }
  | .other => { kind := .other, size := 0, perm := 420 }

/-- The node a path names after following final symlinks (at most `fuel`). -/
def followLinks (t : List (String × Node)) : Nat → String → Option Node
  | 0, _ => none
  | fuel + 1, p =>
    match t.lookup p with
    | some (.symlink target) => followLinks t fuel (Abs (Dir p) target)
    | r => r

/-- The file system of a table: paths are made absolute against the working
directory and looked up; `Stat`, `Chdir` and the reading of a file follow
final symlinks. -/
def tableFS (t : List (String × Node)) : FileSystem :=
  { stat := fun wd p => (followLinks t (t.length + 1) (Abs wd p)).map Node.info
    lstat := fun wd p => (t.lookup (Abs wd p)).map Node.info
    readlink := fun wd p =>
      match t.lookup (Abs wd p) with
      | some (.symlink target) => some target
      | _ => none
    readDirNames := fun wd p =>
      match t.lookup (Abs wd p) with
      | some (.dir names) => some names
      | _ => none
    chdir := fun wd p =>
      match followLinks t (t.length + 1) (Abs wd p) with
      | some (.dir _) => Abs wd p
      | _ => wd
    readFile := fun wd p =>
      match followLinks t (t.length + 1) (Abs wd p) with
      | some (.regular content) => content
      | _ => [] }

/-- The default options with the positional arguments `args`. -/
def conf0 (args : List String) : Config :=
  { ReportFileStartDone := false, BufSize := 131072, PrintProgress := 1,
    PrintRawNumbers := false, OverridePermissions := false, DeleteFirst := false,
    PreserveSymlink := false, Files := "acp" :: args }

/-! ## The copy pipeline: `readFiles` and `writeFiles` -/

/-- Element `offset` of a two-element array. -/
def sel {α : Type} (p : α × α) (offset : Nat) : α := if offset = 0 then p.1 else p.2

/-- A two-element array with element `offset` replaced. -/
def upd {α : Type} (p : α × α) (offset : Nat) (v : α) : α × α :=
  if offset = 0 then (v, p.2) else (p.1, v)

/-- The statement `if offset == 0 { offset = 1 } else { offset = 0 }`. -/
def flip (offset : Nat) : Nat := if offset = 0 then 1 else 0

/-- Calls on the destination file system, in the order they are made. The index
is that of the entry of `c.Files` whose `Destination` the call names; a handle
is the index it was opened for (`none` is the `nil` handle). -/
inductive Event
  | removeExisting (i : Nat)
  | mkdirAll (i : Nat)
  | symlink (i : Nat)
  | openFile (i : Nat)
  | chmod (i : Nat)
  | write (fd : Option Nat) (data : List Nat)
  | close (fd : Option Nat)
  deriving DecidableEq, Repr

/-- Where `readFiles` stands: at the head of the range loop, before the receive
of line 300, before the send of line 310, or returned. -/
inductive RPc
  | outer
  | recv
  | send
  | done
  deriving DecidableEq, Repr

/-- Locals of `readFiles`; `rest` is what the open source has not delivered yet,
`sent` records every send on `r2w` as (offset, bufferFileNo, readlen). -/
structure ReaderState where
  pc : RPc
  offset : Nat
  ll : Nat
  rest : List Nat
  sent : List (Nat × Nat × Int)
  deriving DecidableEq, Repr

/-- Where `writeFiles` stands: at the loop condition of line 332, before the
send of line 402, or returned. -/
inductive WPc
  | loop
  | send
  | done
  deriving DecidableEq, Repr

/-- Locals of `writeFiles`. -/
structure WriterState where
  pc : WPc
  offset : Nat
  ll : Int
  llst : Int
  fd : Option Nat
  deriving DecidableEq, Repr

/-- The shared struct, the locals of both goroutines and the log of calls. -/
structure State where
  c : CopyStruct
  rd : ReaderState
  wr : WriterState
  events : List Event
  deriving DecidableEq, Repr

/-- The state in which `main` starts the two goroutines. -/
def State.init (c : CopyStruct) : State :=
  { c := c
    rd := { pc := .outer, offset := 0, ll := 0, rest := [], sent := [] }
    wr := { pc := .loop, offset := 0, ll := -1, llst := -1, fd := none }
    events := [] }

/-- One step of `readFiles` (lines 272-322) up to its next channel operation;
`none` when it has returned or the channel operation blocks. `os.File.Read`
delivers up to `BufSize` bytes with a nil error, and 0 bytes with `io.EOF` at
the end of the file. A buffer holds the bytes of the last read. -/
def readFilesStep (fs : FileSystem) (wd : String) (s : State) : Option State :=
  match s.rd.pc with
  | .outer =>
    match s.c.Files.get? s.rd.ll with
    | none => some { s with rd := { s.rd with pc := .done } }
    | some file =>
      if file.Typ = TypeFile then
        let events :=
          if s.c.Conf.DeleteFirst then s.events ++ [Event.removeExisting s.rd.ll] else s.events
        if file.lStat.size = 0 then
          if sel s.c.readlen s.rd.offset = 0 then
            some { s with
              c := { s.c with readlen := upd s.c.readlen s.rd.offset (-2),
                              bufferFileNo := upd s.c.bufferFileNo s.rd.offset s.rd.ll }
              rd := { s.rd with offset := flip s.rd.offset, ll := s.rd.ll + 1 }
              events := events }
          else some { s with rd := { s.rd with ll := s.rd.ll + 1 }, events := events }
        else
          some { s with rd := { s.rd with pc := .recv, rest := fs.readFile wd file.Source }
                        events := events }
      else some { s with rd := { s.rd with ll := s.rd.ll + 1 } }
  | .recv =>
    if sel s.c.w2r s.rd.offset = 0 then none
    else
      let c := { s.c with w2r := upd s.c.w2r s.rd.offset (sel s.c.w2r s.rd.offset - 1) }
      if sel c.readlen s.rd.offset = 0 then
        let chunk := s.rd.rest.take s.c.Conf.BufSize.toNat
        if chunk.length ≠ 0 then
          some { s with
            c := { c with buffers := upd c.buffers s.rd.offset chunk,
                          bufferFileNo := upd c.bufferFileNo s.rd.offset s.rd.ll,
                          readlen := upd c.readlen s.rd.offset chunk.length }
            rd := { s.rd with pc := .send, rest := s.rd.rest.drop s.c.Conf.BufSize.toNat } }
        else if s.c.Conf.BufSize.toNat ≠ 0 then
          some { s with c := c, rd := { s.rd with pc := .outer, ll := s.rd.ll + 1 } }
        else some { s with c := c }
      else some { s with c := c }
  | .send =>
    if sel s.c.r2w s.rd.offset ≠ 0 then none
    else
      some { s with
        c := { s.c with r2w := upd s.c.r2w s.rd.offset 1 }
        rd := { s.rd with
          pc := .recv, offset := flip s.rd.offset
          sent := s.rd.sent ++
            [(s.rd.offset, sel s.c.bufferFileNo s.rd.offset, sel s.c.readlen s.rd.offset)] } }
  | .done => none

/-- Lines 350-370 and 418-438: create the directory or the symlink of entry
`bb`; other entries are left alone. -/
def materialize (Files : List files) (events : List Event) (bb : Nat) : List Event :=
  match Files.get? bb with
  | none => events
  | some f =>
    if f.Typ = TypeDir then events ++ [Event.mkdirAll bb]
    else if f.Typ = TypeLink then events ++ [Event.removeExisting bb, Event.symlink bb]
    else events

/-- Lines 337-392: the buffer belongs to another file than the current one. -/
def boundary (s : State) : State :=
  let fileNo := sel s.c.bufferFileNo s.wr.offset
  let ev1 := if s.c.Concat = false then s.events ++ [Event.close s.wr.fd] else s.events
  let llst := s.wr.ll
  let ll : Int := fileNo
  let ev2 := (List.range' (llst + 1).toNat (ll - (llst + 1)).toNat).foldl
    (materialize s.c.Files) ev1
  let ev3 := if s.c.Conf.DeleteFirst then ev2 ++ [Event.removeExisting fileNo] else ev2
  let reopen : Bool := s.c.Concat = false ∨ s.wr.fd = none
  let fd := if reopen then some fileNo else s.wr.fd
  let ev4 := if reopen then ev3 ++ [Event.openFile fileNo] else ev3
  let ev5 := if s.c.Conf.OverridePermissions then ev4 ++ [Event.chmod fileNo] else ev4
  { s with wr := { s.wr with ll := ll, llst := llst, fd := fd }, events := ev5 }

/-- Lines 394-400: write the buffer, or nothing for the marker `-2`. -/
def payload (s : State) : State :=
  let n := sel s.c.readlen s.wr.offset
  if n = -2 then { s with events := s.events ++ [Event.write s.wr.fd []] }
  else
    { s with
      c := { s.c with CopiedBytes := int64 (s.c.CopiedBytes + n) }
      events := s.events ++ [Event.write s.wr.fd ((sel s.c.buffers s.wr.offset).take n.toNat)] }

/-- Lines 335-401, after the receive of line 334. -/
def writerRecv (s : State) : State :=
  if sel s.c.readlen s.wr.offset ≠ 0 then
    let s1 := if s.wr.ll ≠ ((sel s.c.bufferFileNo s.wr.offset : Nat) : Int) then boundary s else s
    let s2 := payload s1
    { s2 with c := { s2.c with readlen := upd s2.c.readlen s2.wr.offset 0 }
              wr := { s2.wr with pc := .send } }
  else s

/-- Lines 402-407: return the buffer and change to the other one. -/
def writerSend (s : State) : State :=
  { s with c := { s.c with w2r := upd s.c.w2r s.wr.offset 1 }
           wr := { s.wr with pc := .loop, offset := flip s.wr.offset } }

/-- Lines 410-442: the entries from `max(ll, 0)` on. -/
def writerEpilogue (s : State) : State :=
  let ll : Int := if s.wr.ll = -1 then 0 else s.wr.ll
  let ev := (List.range' ll.toNat (s.c.Files.length - ll.toNat)).foldl
    (materialize s.c.Files) s.events
  { s with wr := { s.wr with pc := .done, ll := ll }
           events := if s.c.Concat then ev ++ [Event.close s.wr.fd] else ev }

/-- One step of `writeFiles` up to its next channel operation; `none` when it
has returned or the channel operation blocks. -/
def writeFilesStep (s : State) : Option State :=
  match s.wr.pc with
  | .loop =>
    if s.c.TotalSize > s.c.CopiedBytes then
      if sel s.c.r2w s.wr.offset = 0 then none
      else
        some (writerRecv
          { s with c := { s.c with r2w := upd s.c.r2w s.wr.offset (sel s.c.r2w s.wr.offset - 1) } })
    else some (writerEpilogue s)
  | .send => if sel s.c.w2r s.wr.offset ≠ 0 then none else some (writerSend s)
  | .done => none

/-- The step relation of the two goroutines. -/
def Step (fs : FileSystem) (wd : String) (s t : State) : Prop :=
  readFilesStep fs wd s = some t ∨ writeFilesStep s = some t

/-- States the pipeline can reach from `s`. -/
inductive Reachable (fs : FileSystem) (wd : String) (s : State) : State → Prop
  | refl : Reachable fs wd s s
  | step {t u : State} : Reachable fs wd s t → Step fs wd t u → Reachable fs wd s u

/-- A schedule: the reader moves when it can, else the writer, for `n` steps. -/
def sched (fs : FileSystem) (wd : String) : Nat → State → State
  | 0, s => s
  | n + 1, s =>
    match readFilesStep fs wd s with
    | some t => sched fs wd n t
    | none =>
      match writeFilesStep s with
      | some t => sched fs wd n t
      | none => s

/-- What the reader passes to the writer with one token. -/
structure Handoff where
  fileNo : Nat
  readlen : Int
  data : List Nat
  deriving DecidableEq, Repr

/-- The environment of `writeFiles` fills the buffer the writer waits for. -/
def deliver (h : Handoff) (s : State) : State :=
  { s with c := { s.c with
      buffers := upd s.c.buffers s.wr.offset h.data
      bufferFileNo := upd s.c.bufferFileNo s.wr.offset h.fileNo
      readlen := upd s.c.readlen s.wr.offset h.readlen } }

/-- One iteration of the loop of `writeFiles` on a received handoff. -/
def writerTurn (h : Handoff) (s : State) : State :=
  let t := writerRecv (deliver h s)
  if t.wr.pc = WPc.send then writerSend t else t

/-- The writer alone on a sequence of handoffs: it takes a handoff whenever
its loop condition holds, stays at the receive once none is left, and runs
lines 410-442 when the loop condition fails. -/
def writeFilesOn : List Handoff → State → State
  | [], s => if s.c.TotalSize > s.c.CopiedBytes then s else writerEpilogue s
  | h :: hs, s =>
    if s.c.TotalSize > s.c.CopiedBytes then writeFilesOn hs (writerTurn h s)
    else writerEpilogue s

/-! ## What the log of calls says about directories and symlinks -/

/-- The entry and kind a call materializes: `MkdirAll` a directory, `Symlink`
a link, the other calls nothing. -/
def matOf : Event → Option (Nat × Nat)
  | .mkdirAll i => some (i, TypeDir)
  | .symlink i => some (i, TypeLink)
  | _ => none

/-- The directories and symlinks created, in the order of the calls. -/
def materialized (events : List Event) : List (Nat × Nat) := events.filterMap matOf

/-- Index and kind of the Dir and Link entries among the indices `js`. -/
def nonFiles (Files : List files) : List Nat → List (Nat × Nat)
  | [] => []
  | j :: js =>
    match Files.get? j with
    | some f =>
      if f.Typ = TypeDir then (j, TypeDir) :: nonFiles Files js
      else if f.Typ = TypeLink then (j, TypeLink) :: nonFiles Files js
      else nonFiles Files js
    | none => nonFiles Files js

/-- Entry `j` is not a Dir or Link entry, or the calls `events` have created it. -/
def Created (Files : List files) (events : List Event) (j : Nat) : Prop :=
  ∀ f, Files.get? j = some f →
    (f.Typ = TypeDir → Event.mkdirAll j ∈ events) ∧ (f.Typ = TypeLink → Event.symlink j ∈ events)

/-- Index `i` names a File entry of the work list. -/
def IsFileIndex (Files : List files) (i : Nat) : Prop :=
  (Files.get? i).map files.Typ = some TypeFile

instance (Files : List files) (i : Nat) : Decidable (IsFileIndex Files i) := by
  unfold IsFileIndex; infer_instance

/-- Every file is opened only after the Dir and Link entries before it in the
work list have been created. -/
def OpensAfterCreation (Files : List files) (events : List Event) : Prop :=
  ∀ pre k post, events = pre ++ Event.openFile k :: post → ∀ j, j < k → Created Files pre j

/-! ## Sizes recorded by the enumeration -/

/-- The size the enumeration added to `TotalSize` for an entry: for a File
entry the size of its `fStat`, or of the terminal target when `WalkSymlinks`
made it from a link; nothing for other entries. -/
def fileSize (f : files) : Int :=
  if f.Typ = TypeFile then
    match f.LinkFileLstat with
    | some target => target.size
    | none => f.fStat.size
  else 0

/-- Sum of the sizes of the File entries of a work list. -/
def sumSizes (Files : List files) : Int := (Files.map fileSize).sum

/-! ## Bytes on their way through the pipeline -/

/-- Bytes held in the two buffers: `readlen` where it is positive. -/
def inflight (readlen : Int × Int) : Int := max readlen.1 0 + max readlen.2 0

/-- Bytes the reader has still to read: the rest of the open source and the
File entries after it. -/
def pending (s : State) : Int :=
  match s.rd.pc with
  | .outer => sumSizes (s.c.Files.drop s.rd.ll)
  | .recv => s.rd.rest.length + sumSizes (s.c.Files.drop (s.rd.ll + 1))
  | .send => s.rd.rest.length + sumSizes (s.c.Files.drop (s.rd.ll + 1))
  | .done => 0

/-- Every source delivers as many bytes as the enumeration recorded for it. -/
def SizesAsRecorded (fs : FileSystem) (wd : String) (Files : List files) : Prop :=
  ∀ f ∈ Files, f.Typ = TypeFile → ((fs.readFile wd f.Source).length : Int) = fileSize f

instance (fs : FileSystem) (wd : String) (Files : List files) :
    Decidable (SizesAsRecorded fs wd Files) := by
  unfold SizesAsRecorded; infer_instance

/-! ## Predicates used in the proofs -/

/-- The calls of the materializing loop over the indices `js`. -/
def matEvents (Files : List files) : List Nat → List Event
  | [] => []
  | j :: js => materialize Files [] j ++ matEvents Files js

/-- Calls that neither open a file nor create a directory or symlink. -/
def Plain (l : List Event) : Prop := ∀ x ∈ l, matOf x = none ∧ ∀ k, x ≠ Event.openFile k

/-- The indices the loop of lines 348-371 runs over. -/
def between (llst : Int) (k : Nat) : List Nat :=
  List.range' (llst + 1).toNat ((k : Int) - (llst + 1)).toNat

/-- How one iteration on a handoff with `readlen ≠ 0` extends the log. -/
def TurnRel (Files : List files) (ll : Int) (ev : List Event) (k : Nat) (ev1 : List Event) :
    Prop :=
  ∃ a b o e, Plain a ∧ Plain b ∧ Plain e ∧ (o = [] ∨ o = [Event.openFile k]) ∧
    ev1 = ev ++ a ++ matEvents Files (if ll = k then [] else between ll k) ++ b ++ o ++ e

/-- The writer has created exactly the Dir and Link entries up to its current
file, which is a File entry. -/
def InvM (Files : List files) (ll : Int) (ev : List Event) : Prop :=
  (ll = -1 ∨ ∃ n : Nat, ll = n ∧ IsFileIndex Files n) ∧
    materialized ev = nonFiles Files (List.range' 0 (ll + 1).toNat)

/-- An integer in the range of `int64`. -/
def InInt64 (x : Int) : Prop := -9223372036854775808 ≤ x ∧ x < 9223372036854775808

/-- The struct `c1` is `c` with the entries `suf` appended and their sizes
added, as `int64`, to `TotalSize`. -/
def Ext (c : CopyStruct) (suf : List files) (c1 : CopyStruct) : Prop :=
  c1.Files = c.Files ++ suf ∧
    c1.TotalSize % 18446744073709551616 = (c.TotalSize + sumSizes suf) % 18446744073709551616 ∧
    (InInt64 c.TotalSize → InInt64 c1.TotalSize) ∧ c1.Conf = c.Conf ∧
    c1.CopiedBytes = c.CopiedBytes ∧ c1.readlen = c.readlen

/-- What holds of the struct between the calls of `Walk` in `main`, `p` being
the option `PreserveSymlink`. -/
def EnumInv (p : Bool) (c : CopyStruct) : Prop :=
  c.Conf.PreserveSymlink = p ∧
    c.TotalSize % 18446744073709551616 = sumSizes c.Files % 18446744073709551616 ∧
    InInt64 c.TotalSize ∧ c.CopiedBytes = 0 ∧ c.readlen = (0, 0) ∧
    (c.Concat = true → ∀ f ∈ c.Files, f.Typ = TypeFile ∨ (f.Typ = TypeLink ∧ p = false)) ∧
    (c.Concat = false → ∃ f ∈ c.Files, f.Typ = TypeDir ∨ (f.Typ = TypeLink ∧ p = true))

/-- What holds of the struct in the range loop of `WalkSymlinks` before the
entry at index `i`, `rest` being the entries still to visit. -/
def LoopInv (rest : List files) (i : Nat) (c : CopyStruct) : Prop :=
  ∃ pre tail, c.Files = pre ++ rest ++ tail ∧ pre.length = i ∧
    c.Conf.PreserveSymlink = false ∧
    c.TotalSize % 18446744073709551616 = sumSizes c.Files % 18446744073709551616 ∧
    InInt64 c.TotalSize ∧ c.CopiedBytes = 0 ∧ c.readlen = (0, 0) ∧
    (c.Concat = true → tail = [] ∧ (∀ f ∈ pre, f.Typ = TypeFile) ∧
      ∀ f ∈ rest, f.Typ = TypeFile ∨ f.Typ = TypeLink) ∧
    (c.Concat = false → ∃ f ∈ c.Files, f.Typ = TypeDir)

/-- A value of `readlen`: a byte count or the marker `-2`. -/
def OkLen (n : Int) : Prop := n = -2 ∨ 0 ≤ n

/-- The invariant of the byte accounting, for a total that fits in `int64`. -/
def PipeInv (Files : List files) (Total : Int) (s : State) : Prop :=
  s.c.Files = Files ∧ s.c.TotalSize = Total ∧
    s.c.CopiedBytes + inflight s.c.readlen + pending s ≤ Total ∧
    OkLen s.c.readlen.1 ∧ OkLen s.c.readlen.2 ∧
    (0 ≤ s.c.CopiedBytes ∧ Total < 9223372036854775808 ∧
      (s.wr.pc = WPc.done → Total ≤ s.c.CopiedBytes))

/-- The byte count lines 394-400 add to `CopiedBytes`. -/
def written (n : Int) : Int := if n = -2 then 0 else n

/-- The field `CopiedBytes` after lines 394-400 on a buffer with `readlen = n`. -/
def copiedAfter (copied n : Int) : Int := if n = -2 then copied else int64 (copied + n)

/-- The handoffs sent so far name File entries up to the current one in
non-decreasing order, and a buffer with `readlen ≠ 0` names a File entry. -/
def SentInv (Files : List files) (s : State) : Prop :=
  s.c.Files = Files ∧
    (∀ x ∈ s.rd.sent, IsFileIndex Files x.2.1 ∧ x.2.1 ≤ s.rd.ll) ∧
    s.rd.sent.Pairwise (fun a b => a.2.1 ≤ b.2.1) ∧
    (s.rd.pc = RPc.recv ∨ s.rd.pc = RPc.send → IsFileIndex Files s.rd.ll) ∧
    (s.rd.pc = RPc.send → sel s.c.bufferFileNo s.rd.offset = s.rd.ll) ∧
    (∀ o, sel s.c.readlen o ≠ 0 → IsFileIndex Files (sel s.c.bufferFileNo o))

/-- Working directory `/w` holding the directory `a` with one file `x`, and
the empty directory `b`. -/
def fsDir : FileSystem := tableFS
  [("/w", .dir ["a", "b"]), ("/w/a", .dir ["x"]), ("/w/a/x", .regular [1, 2, 3]),
   ("/w/b", .dir [])]

/-- Working directory `/w` holding the directory `d` (a file `g` and a link
`m` to it), a link `l` to `d`, and the empty directory `out`. -/
def fsLinkDir : FileSystem := tableFS
  [("/w", .dir ["d", "l", "out"]), ("/w/d", .dir ["g", "m"]), ("/w/d/g", .regular [1, 2]),
   ("/w/d/m", .symlink "g"), ("/w/l", .symlink "d"), ("/w/out", .dir [])]

/-- Working directory `/w` holding the files `f` (3 bytes), `g` (2 bytes),
`e` (empty) and a link `l` to `f`; no `out`. -/
def fsFiles : FileSystem := tableFS
  [("/w", .dir ["e", "f", "g", "l"]), ("/w/e", .regular []), ("/w/f", .regular [1, 2, 3]),
   ("/w/g", .regular [4, 5]), ("/w/l", .symlink "f")]

/-- Working directory `/v` holding one file `x.txt`. -/
def fsDot : FileSystem := tableFS [("/v", .dir ["x.txt"]), ("/v/x.txt", .regular [1])]

/-- Working directory `/w` holding one regular file `big` of 2^62 bytes, all
zero; no `out`. -/
def fsSparse : FileSystem :=
  { stat := fun wd p =>
      if Abs wd p = "/w/big" then
        some { kind := .regular, size := 4611686018427387904, perm := 420 }
      else none
    lstat := fun wd p =>
      if Abs wd p = "/w/big" then
        some { kind := .regular, size := 4611686018427387904, perm := 420 }
      else none
    readlink := fun _ _ => none
    readDirNames := fun _ _ => none
    chdir := fun wd _ => wd
    readFile := fun wd p =>
      if Abs wd p = "/w/big" then List.replicate 4611686018427387904 0 else [] }

/-- What an entry says: source, destination, kind. -/
def files.summary (f : files) : String × String × Nat := (f.Source, f.Destination, f.Typ)

/-- The pipeline started on the result of the enumeration. -/
def copyRun (fs : FileSystem) (wd : String) (conf : Config) (steps : Nat) : Option State :=
  (mainEnumerate fs 8 wd conf).map (fun c => sched fs wd steps (State.init c))

/-- The current file of the writer is a File entry, every Dir and Link entry
before it has been created, and so has every one before an opened file. -/
def InvO (Files : List files) (ll : Int) (ev : List Event) : Prop :=
  (ll = -1 ∨ ∃ n : Nat, ll = n ∧ IsFileIndex Files n) ∧
    (∀ j : Nat, (j : Int) < ll → Created Files ev j) ∧ OpensAfterCreation Files ev

/-- A work list with a directory, a file in it, a link, a second file and a
trailing directory. -/
def sampleFiles : List files :=
  let info : FileInfo := { kind := .regular, size := 2, perm := 420 }
  let entry (src : String) (typ : Nat) : files :=
    { Source := src, Destination := "out/" ++ src, Typ := typ, fStat := info, lStat := info,
      LinkFile := "", LinkFileLstat := none, LinkSource := "x" }
  [entry "d" TypeDir, entry "d/x" TypeFile, entry "d/l" TypeLink, entry "d/y" TypeFile,
   entry "d/z" TypeDir]

/-- The struct of `main` for `sampleFiles`, 4 bytes to copy. -/
def sampleCopy : CopyStruct :=
  { CopyStruct.new (conf0 ["d", "out"]) with Files := sampleFiles, TotalSize := 4 }

/-- The handoffs of the two files of `sampleFiles`. -/
def sampleHandoffs : List Handoff :=
  [{ fileNo := 1, readlen := 2, data := [7, 8] }, { fileNo := 3, readlen := 2, data := [9, 9] }]

/-! ## Theorems -/

/-! ## The writer on a sequence of handoffs -/

theorem typeLink_ne_typeDir : ¬ TypeLink = TypeDir := by decide

theorem typeFile_ne_typeDir : ¬ TypeFile = TypeDir := by decide

theorem typeFile_ne_typeLink : ¬ TypeFile = TypeLink := by decide

theorem isFileIndex_iff {Files : List files} {i : Nat} :
    IsFileIndex Files i ↔ ∃ f, Files.get? i = some f ∧ f.Typ = TypeFile := by
  unfold IsFileIndex
  cases Files.get? i with
  | none => simp
  | some f => simp

theorem materialize_eq_append (Files : List files) (ev : List Event) (bb : Nat) :
    materialize Files ev bb = ev ++ materialize Files [] bb := by
  unfold materialize
  cases Files.get? bb with
  | none => simp
  | some f => by_cases h1 : f.Typ = TypeDir <;> by_cases h2 : f.Typ = TypeLink <;> simp [h1, h2, typeLink_ne_typeDir]

theorem foldl_materialize (Files : List files) (js : List Nat) (ev : List Event) :
    js.foldl (materialize Files) ev = ev ++ matEvents Files js := by
  induction js generalizing ev with
  | nil => simp [matEvents]
  | cons j js ih =>
    simp only [List.foldl_cons, matEvents]
    rw [ih, materialize_eq_append, List.append_assoc]

theorem nonFiles_append (Files : List files) (js ks : List Nat) :
    nonFiles Files (js ++ ks) = nonFiles Files js ++ nonFiles Files ks := by
  induction js with
  | nil => simp [nonFiles]
  | cons j js ih =>
    simp only [List.cons_append, nonFiles]
    cases Files.get? j with
    | none => simpa using ih
    | some f => by_cases h1 : f.Typ = TypeDir <;> by_cases h2 : f.Typ = TypeLink <;> simp [h1, h2, ih, typeLink_ne_typeDir]

theorem materialized_append (a b : List Event) :
    materialized (a ++ b) = materialized a ++ materialized b := by
  simp [materialized, List.filterMap_append]

theorem materialized_matEvents (Files : List files) (js : List Nat) :
    materialized (matEvents Files js) = nonFiles Files js := by
  induction js with
  | nil => simp [matEvents, nonFiles, materialized]
  | cons j js ih =>
    simp only [matEvents, nonFiles, materialized_append, ih]
    unfold materialize
    cases Files.get? j with
    | none => simp [materialized]
    | some f =>
      by_cases h1 : f.Typ = TypeDir <;> by_cases h2 : f.Typ = TypeLink <;>
        simp [h1, h2, materialized, matOf, typeLink_ne_typeDir]

theorem openFile_not_mem_matEvents (Files : List files) (js : List Nat) (k : Nat) :
    Event.openFile k ∉ matEvents Files js := by
  induction js with
  | nil => simp [matEvents]
  | cons j js ih =>
    simp only [matEvents, List.mem_append, not_or]
    refine ⟨?_, ih⟩
    unfold materialize
    cases Files.get? j with
    | none => simp
    | some f => by_cases h1 : f.Typ = TypeDir <;> by_cases h2 : f.Typ = TypeLink <;> simp [h1, h2, typeLink_ne_typeDir]

theorem created_matEvents (Files : List files) (js : List Nat) (j : Nat) (hj : j ∈ js) :
    Created Files (matEvents Files js) j := by
  induction js with
  | nil => simp at hj
  | cons i js ih =>
    intro f hf
    simp only [matEvents, List.mem_append]
    rcases List.mem_cons.mp hj with h | h
    · subst h
      unfold materialize
      rw [hf]
      constructor
      · intro h1; left; simp [h1]
      · intro h2
        have h1 : f.Typ ≠ TypeDir := by rw [h2]; decide
        left; simp [h1, h2, typeLink_ne_typeDir]
    · exact ⟨fun h1 => Or.inr ((ih h f hf).1 h1), fun h2 => Or.inr ((ih h f hf).2 h2)⟩

theorem Created.mono {Files : List files} {ev : List Event} {j : Nat} (h : Created Files ev j)
    (extra : List Event) : Created Files (ev ++ extra) j := by
  intro f hf
  exact ⟨fun h1 => List.mem_append_left _ ((h f hf).1 h1),
    fun h2 => List.mem_append_left _ ((h f hf).2 h2)⟩

theorem Created.mono_right {Files : List files} {ev : List Event} {j : Nat}
    (h : Created Files ev j) (before : List Event) : Created Files (before ++ ev) j := by
  intro f hf
  exact ⟨fun h1 => List.mem_append_right _ ((h f hf).1 h1),
    fun h2 => List.mem_append_right _ ((h f hf).2 h2)⟩

theorem created_of_isFileIndex {Files : List files} {j : Nat} (h : IsFileIndex Files j)
    (ev : List Event) : Created Files ev j := by
  obtain ⟨f, hf, ht⟩ := isFileIndex_iff.mp h
  intro g hg
  rw [hf] at hg
  cases hg
  constructor
  · intro h1; rw [ht] at h1; exact absurd h1 (by decide)
  · intro h2; rw [ht] at h2; exact absurd h2 (by decide)

theorem plain_nil : Plain [] := by intro x hx; simp at hx

theorem plain_singleton (x : Event) (hx : matOf x = none ∧ ∀ k, x ≠ Event.openFile k) :
    Plain [x] := by
  intro y hy
  simp at hy; subst hy; exact hx

theorem plain_ite (p : Prop) [Decidable p] (x : Event)
    (hx : matOf x = none ∧ ∀ k, x ≠ Event.openFile k) :
    Plain (if p then [x] else []) := by
  split_ifs
  · exact plain_singleton x hx
  · exact plain_nil

theorem plain_append {a b : List Event} (ha : Plain a) (hb : Plain b) : Plain (a ++ b) := by
  intro x hx
  rcases List.mem_append.mp hx with h | h
  · exact ha x h
  · exact hb x h

theorem materialized_plain {l : List Event} (h : Plain l) : materialized l = [] := by
  induction l with
  | nil => rfl
  | cons x l ih =>
    have hx := (h x (List.mem_cons_self _ _)).1
    have hl : Plain l := fun y hy => h y (List.mem_cons_of_mem _ hy)
    simp only [materialized, List.filterMap_cons, hx]
    exact ih hl

theorem openFile_not_mem_plain {l : List Event} (h : Plain l) (k : Nat) :
    Event.openFile k ∉ l := fun hk => (h _ hk).2 k rfl

theorem boundary_events (s : State) :
    (boundary s).events = s.events
      ++ (if s.c.Concat = false then [Event.close s.wr.fd] else [])
      ++ matEvents s.c.Files (between s.wr.ll (sel s.c.bufferFileNo s.wr.offset))
      ++ (if s.c.Conf.DeleteFirst then [Event.removeExisting (sel s.c.bufferFileNo s.wr.offset)]
          else [])
      ++ (if (s.c.Concat = false ∨ s.wr.fd = none)
          then [Event.openFile (sel s.c.bufferFileNo s.wr.offset)] else [])
      ++ (if s.c.Conf.OverridePermissions then [Event.chmod (sel s.c.bufferFileNo s.wr.offset)]
          else []) := by
  unfold boundary between
  simp only [foldl_materialize]
  split_ifs <;> simp_all

theorem boundary_c (s : State) : (boundary s).c = s.c := rfl

theorem boundary_rd (s : State) : (boundary s).rd = s.rd := rfl

theorem boundary_ll (s : State) : (boundary s).wr.ll = (sel s.c.bufferFileNo s.wr.offset : Nat) :=
  rfl

theorem boundary_offset (s : State) : (boundary s).wr.offset = s.wr.offset := rfl

theorem payload_wr (s : State) : (payload s).wr = s.wr := by
  unfold payload; dsimp only; split_ifs <;> rfl

theorem payload_rd (s : State) : (payload s).rd = s.rd := by
  unfold payload; dsimp only; split_ifs <;> rfl

theorem payload_Files (s : State) : (payload s).c.Files = s.c.Files := by
  unfold payload; dsimp only; split_ifs <;> rfl

theorem payload_events (s : State) :
    ∃ data, (payload s).events = s.events ++ [Event.write s.wr.fd data] := by
  unfold payload; dsimp only; split_ifs
  · exact ⟨_, rfl⟩
  · exact ⟨_, rfl⟩

theorem plain_write (fd : Option Nat) (data : List Nat) : Plain [Event.write fd data] :=
  plain_singleton _ (by simp [matOf])

theorem sel_upd {α : Type} (p : α × α) (offset : Nat) (v : α) : sel (upd p offset v) offset = v := by
  unfold sel upd; split_ifs <;> rfl

theorem writerTurn_zero (h : Handoff) (s : State) (hpc : s.wr.pc = WPc.loop)
    (hz : h.readlen = 0) :
    (writerTurn h s).wr = s.wr ∧ (writerTurn h s).events = s.events ∧
      (writerTurn h s).c.Files = s.c.Files := by
  have h1 : sel (deliver h s).c.readlen (deliver h s).wr.offset = 0 := by
    simp only [deliver, sel_upd, hz]
  have h2 : writerRecv (deliver h s) = deliver h s := by
    unfold writerRecv; simp [h1]
  have h3 : (deliver h s).wr.pc ≠ WPc.send := by
    show s.wr.pc ≠ WPc.send
    rw [hpc]; decide
  unfold writerTurn
  simp only [h2, h3, if_false]
  exact ⟨rfl, rfl, rfl⟩

theorem writerTurn_nonzero (h : Handoff) (s : State) (hz : h.readlen ≠ 0) :
    (writerTurn h s).wr.pc = WPc.loop ∧ (writerTurn h s).c.Files = s.c.Files ∧
      (writerTurn h s).wr.ll = h.fileNo ∧
      TurnRel s.c.Files s.wr.ll s.events h.fileNo (writerTurn h s).events := by
  have h1 : sel (deliver h s).c.readlen (deliver h s).wr.offset = h.readlen := by
    simp only [deliver, sel_upd]
  have h1b : sel (deliver h s).c.bufferFileNo (deliver h s).wr.offset = h.fileNo := by
    simp only [deliver, sel_upd]
  unfold writerTurn
  simp only [writerRecv, h1, hz, h1b, ne_eq, not_false_eq_true, if_true, writerSend]
  by_cases hll : s.wr.ll = (h.fileNo : Int)
  · have hll2 : (deliver h s).wr.ll = (h.fileNo : Int) := hll
    simp only [hll2, not_true_eq_false, if_false]
    refine ⟨trivial, ?_, ?_, ?_⟩
    · show (payload (deliver h s)).c.Files = _
      rw [payload_Files]; rfl
    · show (payload (deliver h s)).wr.ll = _
      rw [payload_wr]; exact hll
    · show TurnRel _ _ _ _ (payload (deliver h s)).events
      obtain ⟨data, hd⟩ := payload_events (deliver h s)
      rw [hd]
      refine ⟨[], [], [], [Event.write (deliver h s).wr.fd data], plain_nil, plain_nil,
        plain_write _ data, Or.inl rfl, ?_⟩
      simp [hll, matEvents, deliver]
  · have hll2 : ¬ (deliver h s).wr.ll = (h.fileNo : Int) := hll
    simp only [hll2, not_false_eq_true, if_true]
    have hb := boundary_events (deliver h s)
    rw [h1b] at hb
    refine ⟨trivial, ?_, ?_, ?_⟩
    · show (payload (boundary (deliver h s))).c.Files = _
      rw [payload_Files]; rfl
    · show (payload (boundary (deliver h s))).wr.ll = _
      rw [payload_wr, boundary_ll, h1b]
    · show TurnRel _ _ _ _ (payload (boundary (deliver h s))).events
      obtain ⟨data, hd⟩ := payload_events (boundary (deliver h s))
      rw [hd, hb]
      refine ⟨if (deliver h s).c.Concat = false then [Event.close (deliver h s).wr.fd] else [],
        if (deliver h s).c.Conf.DeleteFirst = true then [Event.removeExisting h.fileNo] else [],
        if (deliver h s).c.Concat = false ∨ (deliver h s).wr.fd = none
          then [Event.openFile h.fileNo] else [],
        (if (deliver h s).c.Conf.OverridePermissions = true then [Event.chmod h.fileNo] else [])
          ++ [Event.write (boundary (deliver h s)).wr.fd data],
        plain_ite _ _ (by simp [matOf]), plain_ite _ _ (by simp [matOf]),
        plain_append (plain_ite _ _ (by simp [matOf])) (plain_write _ data), ?_, ?_⟩
      · split_ifs
        · exact Or.inr rfl
        · exact Or.inl rfl
      · simp only [hll, if_false, List.append_assoc]
        rfl

theorem between_neg_one (k : Nat) : between (-1) k = List.range' 0 k := by
  unfold between
  simp

theorem between_nat (n k : Nat) : between (n : Int) k = List.range' (n + 1) (k - (n + 1)) := by
  unfold between
  have h1 : ((n : Int) + 1).toNat = n + 1 := by omega
  have h2 : ((k : Int) - ((n : Int) + 1)).toNat = k - (n + 1) := by omega
  rw [h1, h2]

theorem writerEpilogue_events (s : State) :
    ∃ e, Plain e ∧ (writerEpilogue s).events = s.events
      ++ matEvents s.c.Files
          (List.range' (if s.wr.ll = -1 then (0 : Int) else s.wr.ll).toNat
            (s.c.Files.length - (if s.wr.ll = -1 then (0 : Int) else s.wr.ll).toNat))
      ++ e := by
  unfold writerEpilogue
  simp only [foldl_materialize]
  by_cases hc : s.c.Concat = true
  · exact ⟨[Event.close s.wr.fd], plain_singleton _ (by simp [matOf]), by simp [hc]⟩
  · exact ⟨[], plain_nil, by simp [hc]⟩

theorem nonFiles_singleton_file {Files : List files} {k : Nat} (h : IsFileIndex Files k) :
    nonFiles Files [k] = [] := by
  obtain ⟨f, hf, ht⟩ := isFileIndex_iff.mp h
  simp only [nonFiles, hf, ht]
  simp [typeFile_ne_typeDir, typeFile_ne_typeLink]

theorem range_split (a b : Nat) (h : a ≤ b) :
    List.range' 0 a ++ List.range' a (b - a) = List.range' 0 b := by
  have h1 := List.range'_append 0 a (b - a) 1
  simp only [Nat.zero_add, Nat.one_mul] at h1
  rw [h1]
  congr 1
  omega

theorem nonFiles_range_succ {Files : List files} {k : Nat} (h : IsFileIndex Files k) :
    nonFiles Files (List.range' 0 (k + 1)) = nonFiles Files (List.range' 0 k) := by
  have : List.range' 0 (k + 1) = List.range' 0 k ++ [k] := by
    rw [List.range'_concat]; simp
  rw [this, nonFiles_append, nonFiles_singleton_file h, List.append_nil]

theorem isFileIndex_lt {Files : List files} {k : Nat} (h : IsFileIndex Files k) :
    k < Files.length := by
  obtain ⟨f, hf, _⟩ := isFileIndex_iff.mp h
  exact (List.get?_eq_some.mp hf).1

theorem invM_turn {Files : List files} {ll : Int} {ev ev1 : List Event} {k : Nat}
    (hinv : InvM Files ll ev) (hk : IsFileIndex Files k) (hle : ll ≤ k)
    (hrel : TurnRel Files ll ev k ev1) : InvM Files k ev1 := by
  obtain ⟨a, b, o, e, ha, hb, he, ho, hev⟩ := hrel
  refine ⟨Or.inr ⟨k, rfl, hk⟩, ?_⟩
  have hmo : materialized o = [] := by
    rcases ho with h | h <;> subst h <;> simp [materialized, matOf]
  rw [hev]
  simp only [materialized_append, materialized_plain ha, materialized_plain hb,
    materialized_plain he, hmo, List.append_nil, materialized_matEvents, hinv.2]
  have hk1 : ((k : Int) + 1).toNat = k + 1 := by omega
  rw [hk1, nonFiles_range_succ hk]
  by_cases hllk : ll = (k : Int)
  · simp only [hllk, if_true, nonFiles, List.append_nil, hk1]
    exact nonFiles_range_succ hk
  · simp only [hllk, if_false]
    rw [← nonFiles_append]
    congr 1
    rcases hinv.1 with h | ⟨n, hn, _⟩
    · subst h
      rw [between_neg_one]; simp
    · subst hn
      rw [between_nat]
      have h1 : ((n : Int) + 1).toNat = n + 1 := by omega
      have h2 : n < k := by omega
      rw [h1]
      exact range_split (n + 1) k h2

theorem invM_epilogue {Files : List files} (s : State) (hF : s.c.Files = Files)
    (hinv : InvM Files s.wr.ll s.events) :
    materialized (writerEpilogue s).events = nonFiles Files (List.range Files.length) := by
  obtain ⟨e, he, hev⟩ := writerEpilogue_events s
  rw [hev, hF]
  simp only [materialized_append, materialized_plain he, List.append_nil,
    materialized_matEvents, hinv.2, List.range_eq_range']
  rcases hinv.1 with h | ⟨n, hn, hfile⟩
  · simp [h, nonFiles]
  · have hlt := isFileIndex_lt hfile
    have hne : ¬ ((n : Int) = -1) := by omega
    have h1 : ((n : Int) + 1).toNat = n + 1 := by omega
    simp only [hn, hne, if_false, Int.toNat_ofNat, h1]
    have h2 : List.range' n (Files.length - n) = [n] ++ List.range' (n + 1) (Files.length - (n + 1)) := by
      have : Files.length - n = (Files.length - (n + 1)) + 1 := by omega
      rw [this, List.range'_succ]; rfl
    rw [h2, nonFiles_append, nonFiles_singleton_file hfile,
      List.nil_append, ← nonFiles_append, range_split (n + 1) Files.length hlt]

theorem writeFilesOn_materialized (Files : List files) :
    ∀ (hs : List Handoff) (s : State), s.c.Files = Files → s.wr.pc = WPc.loop →
      InvM Files s.wr.ll s.events →
      (∀ h ∈ hs, IsFileIndex Files h.fileNo) → (∀ h ∈ hs, s.wr.ll ≤ h.fileNo) →
      hs.Pairwise (fun a b => a.fileNo ≤ b.fileNo) →
      (writeFilesOn hs s).wr.pc = WPc.done →
      materialized (writeFilesOn hs s).events = nonFiles Files (List.range Files.length) := by
  intro hs
  induction hs with
  | nil =>
    intro s hF hpc hinv _ _ _ hdone
    unfold writeFilesOn at hdone ⊢
    split_ifs at hdone ⊢ with hgt
    · rw [hpc] at hdone; cases hdone
    · exact invM_epilogue s hF hinv
  | cons h hs ih =>
    intro s hF hpc hinv hfile hle hsorted hdone
    unfold writeFilesOn at hdone ⊢
    split_ifs at hdone ⊢ with hgt
    · have hsorted2 := List.pairwise_cons.mp hsorted
      by_cases hz : h.readlen = 0
      · obtain ⟨hwr, hev, hFiles⟩ := writerTurn_zero h s hpc hz
        apply ih _ (hFiles.trans hF) (by rw [hwr]; exact hpc) (by rw [hwr, hev]; exact hinv)
          (fun x hx => hfile x (List.mem_cons_of_mem _ hx))
          (fun x hx => by rw [hwr]; exact hle x (List.mem_cons_of_mem _ hx)) hsorted2.2 hdone
      · obtain ⟨hpc1, hFiles, hll, hrel⟩ := writerTurn_nonzero h s hz
        rw [hF] at hrel
        apply ih _ (hFiles.trans hF) hpc1
          (by rw [hll]; exact invM_turn hinv (hfile h (List.mem_cons_self _ _))
                (hle h (List.mem_cons_self _ _)) hrel)
          (fun x hx => hfile x (List.mem_cons_of_mem _ hx))
          (fun x hx => by rw [hll]; exact_mod_cast hsorted2.1 x hx) hsorted2.2 hdone
    · exact invM_epilogue s hF hinv

/-! ## Enumeration -/

theorem sumSizes_append (a b : List files) : sumSizes (a ++ b) = sumSizes a + sumSizes b := by
  simp [sumSizes]

theorem sumSizes_cons (f : files) (l : List files) : sumSizes (f :: l) = fileSize f + sumSizes l := by
  simp [sumSizes]

theorem int64_mod (x : Int) :
    int64 x % 18446744073709551616 = x % 18446744073709551616 := by
  unfold int64; omega

theorem inInt64_int64 (x : Int) : InInt64 (int64 x) := by
  unfold int64 InInt64; omega

theorem int64_eq_self {x : Int} (h : InInt64 x) : int64 x = x := by
  unfold int64; unfold InInt64 at h; omega

theorem Ext.refl (c : CopyStruct) : Ext c [] c := by
  simp [Ext, sumSizes]

theorem Ext.trans {c c1 c2 : CopyStruct} {s1 s2 : List files} (h1 : Ext c s1 c1)
    (h2 : Ext c1 s2 c2) : Ext c (s1 ++ s2) c2 := by
  obtain ⟨a1, a2, ar, a3, a4, a5⟩ := h1
  obtain ⟨b1, b2, br, b3, b4, b5⟩ := h2
  refine ⟨?_, ?_, fun h => br (ar h), b3.trans a3, b4.trans a4, b5.trans a5⟩
  · rw [b1, a1, List.append_assoc]
  · rw [sumSizes_append]; omega

theorem isDir_not_regular {i : FileInfo} (h : i.IsDir = true) : i.IsRegular = false := by
  unfold FileInfo.IsDir at h
  unfold FileInfo.IsRegular
  simp only [decide_eq_true_eq] at h
  simp [h]

theorem walkFn_ext {fs : FileSystem} {wd source dest : String} {c c1 : CopyStruct}
    {npath : String} {info : FileInfo}
    (h : walkFn fs wd source dest c npath info = some c1) :
    c1.Concat = c.Concat ∧ ∃ f, Ext c [f] c1 ∧ (info.IsDir = true → f.Typ = TypeDir) := by
  unfold walkFn at h
  by_cases h1 : info.IsRegular = true
  · simp only [h1, if_true, Option.some.injEq] at h
    subst h
    refine ⟨rfl, _, ⟨rfl, ?_, fun _ => inInt64_int64 _, rfl, rfl, rfl⟩, ?_⟩
    · simp [sumSizes, fileSize, int64_mod]
    · intro hd; rw [isDir_not_regular hd] at h1; cases h1
  · by_cases h2 : info.IsDir = true
    · simp only [h1, h2, if_true, if_false, Option.some.injEq, Bool.false_eq_true] at h
      subst h
      refine ⟨rfl, _, ⟨rfl, ?_, fun h => h, rfl, rfl, rfl⟩, fun _ => rfl⟩
      simp [sumSizes, fileSize, typeFile_ne_typeDir, Ne.symm]
    · by_cases h3 : info.IsSymlink = true
      · simp only [h1, h2, h3, if_true, if_false, Bool.false_eq_true] at h
        cases hr : fs.readlink wd npath with
        | none => rw [hr] at h; cases h
        | some l =>
          rw [hr] at h
          simp only [Option.some.injEq] at h
          subst h
          refine ⟨rfl, _, ⟨rfl, ?_, fun h => h, rfl, rfl, rfl⟩, fun hd => absurd hd h2⟩
          have hne : ¬ TypeLink = TypeFile := fun hc => typeFile_ne_typeLink hc.symm
          simp [sumSizes, fileSize, hne]
      · simp [h1, h2, h3] at h

theorem foldlM_option_inv {α β : Type} (f : β → α → Option β) (P : β → Prop)
    (hstep : ∀ b a b1, P b → f b a = some b1 → P b1) :
    ∀ (l : List α) (b r : β), P b → l.foldlM f b = some r → P r := by
  intro l
  induction l with
  | nil =>
    intro b r hb h
    simp only [List.foldlM_nil, Option.pure_def, Option.some.injEq] at h
    subst h; exact hb
  | cons a l ih =>
    intro b r hb h
    simp only [List.foldlM_cons, Option.bind_eq_bind] at h
    cases hfa : f b a with
    | none => rw [hfa] at h; cases h
    | some b1 =>
      rw [hfa] at h
      exact ih b1 r (hstep b a b1 hb hfa) h

theorem walk_ext (fs : FileSystem) (wd source dest : String) :
    ∀ (fuel : Nat) (c c1 : CopyStruct) (path : String) (info : FileInfo),
      walk fs wd source dest fuel c path info = some c1 →
      c1.Concat = c.Concat ∧ ∃ suf, Ext c suf c1 ∧ (info.IsDir = true → ∃ f ∈ suf, f.Typ = TypeDir) := by
  intro fuel
  induction fuel with
  | zero => intro c c1 path info h; simp [walk] at h
  | succ fuel ih =>
    intro c c1 path info h
    unfold walk at h
    by_cases hd : info.IsDir = true
    · simp only [hd, if_true] at h
      cases hn : fs.readDirNames wd path with
      | none => rw [hn] at h; cases h
      | some names =>
        rw [hn] at h
        simp only at h
        cases hw : walkFn fs wd source dest c path info with
        | none => rw [hw] at h; cases h
        | some c2 =>
          rw [hw] at h
          simp only at h
          obtain ⟨hc2, f, hext2, hfd⟩ := walkFn_ext hw
          have key := foldlM_option_inv
            (fun acc name =>
              match fs.lstat wd (Join path name) with
              | none => none
              | some fi => walk fs wd source dest fuel acc (Join path name) fi)
            (fun x => x.Concat = c2.Concat ∧ ∃ suf, Ext c2 suf x)
            (by
              intro b a b1 ⟨hb1, suf, hb2⟩ hfa
              simp only at hfa
              cases hl : fs.lstat wd (Join path a) with
              | none => rw [hl] at hfa; cases hfa
              | some fi =>
                rw [hl] at hfa
                obtain ⟨hx1, suf2, hx2, _⟩ := ih _ _ _ _ hfa
                exact ⟨hx1.trans hb1, suf ++ suf2, hb2.trans hx2⟩)
            names c2 c1 ⟨rfl, [], Ext.refl c2⟩ h
          obtain ⟨hk1, suf, hk2⟩ := key
          refine ⟨hk1.trans hc2, [f] ++ suf, hext2.trans hk2, fun _ => ⟨f, by simp, hfd hd⟩⟩
    · simp only [hd, if_false, Bool.false_eq_true] at h
      obtain ⟨hc2, f, hext2, hfd⟩ := walkFn_ext h
      exact ⟨hc2, [f], hext2, fun h => absurd h hd⟩

theorem ext_append_file (c : CopyStruct) (f : files) (hf : f.Typ = TypeFile)
    (hl : f.LinkFileLstat = none) :
    Ext c [f]
      { c with TotalSize := int64 (c.TotalSize + f.fStat.size), Files := c.Files ++ [f] } := by
  refine ⟨rfl, ?_, fun _ => inInt64_int64 _, rfl, rfl, rfl⟩
  simp [sumSizes, fileSize, hf, hl, int64_mod]

theorem ext_append_other (c c0 : CopyStruct) (f : files) (hf : ¬ f.Typ = TypeFile)
    (e1 : c0.Files = c.Files) (e2 : c0.TotalSize = c.TotalSize) (e3 : c0.Conf = c.Conf)
    (e4 : c0.CopiedBytes = c.CopiedBytes) (e5 : c0.readlen = c.readlen) :
    Ext c [f] { c0 with Files := c0.Files ++ [f] } := by
  refine ⟨by simp [e1], ?_, fun h => by rw [e2]; exact h, e3, e4, e5⟩
  simp [sumSizes, fileSize, hf, e2]

theorem Walk_ext {fs : FileSystem} {fuel : Nat} {wd : String} {c c1 : CopyStruct}
    {source dest : String} (h : Walk fs fuel wd c source dest = some c1) :
    ∃ suf, Ext c suf c1 ∧
      ((c1.Concat = c.Concat ∧
          ∀ f ∈ suf, f.Typ = TypeFile ∨ (f.Typ = TypeLink ∧ c.Conf.PreserveSymlink = false)) ∨
        (c1.Concat = false ∧
          ∃ f ∈ suf, f.Typ = TypeDir ∨ (f.Typ = TypeLink ∧ c.Conf.PreserveSymlink = true))) := by
  unfold Walk at h
  cases hs : fs.stat wd source with
  | none => rw [hs] at h; cases h
  | some fStat =>
    rw [hs] at h
    simp only at h
    by_cases h1 : ((fs.lstat wd source).getD fStat).IsRegular = true
    · simp only [h1, if_true] at h
      have hne : ¬ TypeFile = TypeDir := typeFile_ne_typeDir
      simp only [hne, if_false] at h
      cases hl : fs.lstat wd dest with
      | none =>
        rw [hl] at h
        simp only [Option.some.injEq] at h
        subst h
        exact ⟨_, ext_append_file c _ rfl rfl, Or.inl ⟨rfl, by simp⟩⟩
      | some l =>
        rw [hl] at h
        simp only at h
        split_ifs at h
        · simp only [Option.some.injEq] at h
          subst h
          exact ⟨_, ext_append_file c _ rfl rfl, Or.inl ⟨rfl, by simp⟩⟩
        · simp only [Option.some.injEq] at h
          subst h
          exact ⟨_, ext_append_file c _ rfl rfl, Or.inl ⟨rfl, by simp⟩⟩
    · by_cases h2 : ((fs.lstat wd source).getD fStat).IsDir = true
      · simp only [h1, h2, if_true, if_false, Bool.false_eq_true] at h
        cases hl : fs.lstat wd source with
        | none => rw [hl] at h; simp at h
        | some info =>
          rw [hl] at h h2
          simp only [Option.getD_some] at h h2
          obtain ⟨hc, suf, hext, hdir⟩ := walk_ext fs wd source dest fuel _ c1 source info h
          refine ⟨suf, ?_, Or.inr ⟨hc, ?_⟩⟩
          · exact hext
          · obtain ⟨f, hf, ht⟩ := hdir h2
            exact ⟨f, hf, Or.inl ht⟩
      · by_cases h3 : ((fs.lstat wd source).getD fStat).IsSymlink = true
        · simp only [h1, h2, h3, if_true, if_false, Bool.false_eq_true] at h
          have hne : ¬ TypeLink = TypeDir := typeLink_ne_typeDir
          have hne2 : ¬ TypeLink = TypeFile := fun hc => typeFile_ne_typeLink hc.symm
          simp only [hne, if_false] at h
          by_cases hp : c.Conf.PreserveSymlink = true
          · simp only [hp, if_true] at h
            cases hl : fs.lstat wd dest with
            | none =>
              rw [hl] at h
              simp only [Option.some.injEq] at h
              subst h
              exact ⟨_, ext_append_other c { c with Concat := false } _ hne2 rfl rfl rfl rfl rfl,
                Or.inr ⟨rfl, _, List.mem_singleton.mpr rfl, Or.inr ⟨rfl, hp⟩⟩⟩
            | some l =>
              rw [hl] at h
              simp only at h
              split_ifs at h
              · simp only [Option.some.injEq] at h
                subst h
                exact ⟨_, ext_append_other c { c with Concat := false } _ hne2 rfl rfl rfl rfl rfl,
                  Or.inr ⟨rfl, _, List.mem_singleton.mpr rfl, Or.inr ⟨rfl, hp⟩⟩⟩
              · simp only [Option.some.injEq] at h
                subst h
                exact ⟨_, ext_append_other c { c with Concat := false } _ hne2 rfl rfl rfl rfl rfl,
                  Or.inr ⟨rfl, _, List.mem_singleton.mpr rfl, Or.inr ⟨rfl, hp⟩⟩⟩
          · have hp' : c.Conf.PreserveSymlink = false := by simpa using hp
            simp only [hp', if_false, Bool.false_eq_true] at h
            cases hl : fs.lstat wd dest with
            | none =>
              rw [hl] at h
              simp only [Option.some.injEq] at h
              subst h
              exact ⟨_, ext_append_other c c _ hne2 rfl rfl rfl rfl rfl,
                Or.inl ⟨rfl, by simp [hp']⟩⟩
            | some l =>
              rw [hl] at h
              simp only at h
              split_ifs at h
              · simp only [Option.some.injEq] at h
                subst h
                exact ⟨_, ext_append_other c c _ hne2 rfl rfl rfl rfl rfl,
                  Or.inl ⟨rfl, by simp [hp']⟩⟩
              · simp only [Option.some.injEq] at h
                subst h
                exact ⟨_, ext_append_other c c _ hne2 rfl rfl rfl rfl rfl,
                  Or.inl ⟨rfl, by simp [hp']⟩⟩
        · simp [h1, h2, h3] at h

theorem Walk_enumInv {fs : FileSystem} {fuel : Nat} {wd : String} {c c1 : CopyStruct}
    {source dest : String} {p : Bool} (hinv : EnumInv p c)
    (h : Walk fs fuel wd c source dest = some c1) : EnumInv p c1 := by
  obtain ⟨suf, ⟨e1, e2, er, e3, e4, e5⟩, hcase⟩ := Walk_ext h
  obtain ⟨i1, i2, ir, i3, i4, i5, i6⟩ := hinv
  refine ⟨by rw [e3]; exact i1, by rw [e1, sumSizes_append]; omega, er ir,
    by rw [e4]; exact i3, by rw [e5]; exact i4, ?_, ?_⟩
  · intro hc f hf
    rw [e1] at hf
    rcases hcase with ⟨hc1, hall⟩ | ⟨hc1, _⟩
    · rcases List.mem_append.mp hf with hf | hf
      · exact i5 (by rw [← hc1]; exact hc) f hf
      · rcases hall f hf with h | ⟨h, hp⟩
        · exact Or.inl h
        · exact Or.inr ⟨h, by rw [← i1]; exact hp⟩
    · rw [hc1] at hc; cases hc
  · intro hc
    rw [e1]
    rcases hcase with ⟨hc1, _⟩ | ⟨_, f, hf, ht⟩
    · obtain ⟨f, hf, ht⟩ := i6 (by rw [← hc1]; exact hc)
      exact ⟨f, List.mem_append_left _ hf, ht⟩
    · refine ⟨f, List.mem_append_right _ hf, ?_⟩
      rcases ht with h | ⟨h, hp⟩
      · exact Or.inl h
      · exact Or.inr ⟨h, by rw [← i1]; exact hp⟩

theorem resolveChain_not_symlink (fs : FileSystem) :
    ∀ (fuel : Nat) (wd linkFile : String) (st : FileInfo) (r : String × String × FileInfo),
      resolveChain fs fuel wd linkFile st = some r → r.2.2.IsSymlink = false := by
  intro fuel
  induction fuel with
  | zero => intro wd linkFile st r h; simp [resolveChain] at h
  | succ fuel ih =>
    intro wd linkFile st r h
    unfold resolveChain at h
    by_cases hs : st.IsSymlink = true
    · simp only [hs, if_true] at h
      cases hr : fs.readlink (fs.chdir wd (Dir linkFile)) (Base linkFile) with
      | none => rw [hr] at h; cases h
      | some target =>
        rw [hr] at h
        simp only at h
        cases hl : fs.lstat (fs.chdir wd (Dir linkFile)) target with
        | none => rw [hl] at h; cases h
        | some st1 =>
          rw [hl] at h
          exact ih _ _ _ _ h
    · simp only [hs, if_false, Bool.false_eq_true, Option.some.injEq] at h
      subst h
      simpa using hs

theorem set_at_length {α : Type} (pre : List α) (a x : α) (post : List α) :
    (pre ++ a :: post).set pre.length x = pre ++ x :: post := by
  induction pre with
  | nil => rfl
  | cons b pre ih => simp [ih]

theorem visit_loopInv {fs : FileSystem} {fuel : Nat} {wd : String} {i : Nat} {file : files}
    {rest : List files} {c c1 : CopyStruct} (hinv : LoopInv (file :: rest) i c)
    (h : walkSymlinksVisit fs fuel wd i file c = some c1) : LoopInv rest (i + 1) c1 := by
  obtain ⟨pre, tail, hF, hlen, hp, hsum, hin, hcb, hrl, hct, hcf⟩ := hinv
  have hF2 : c.Files = pre ++ file :: (rest ++ tail) := by simp [hF]
  unfold walkSymlinksVisit at h
  by_cases hl : file.Typ = TypeLink
  · simp only [hl, if_true] at h
    cases hr : resolveChain fs fuel wd file.Source file.lStat with
    | none => rw [hr] at h; cases h
    | some r =>
      obtain ⟨wd1, linkFile, st⟩ := r
      have hns := resolveChain_not_symlink fs fuel _ _ _ _ hr
      simp only at hns
      rw [hr] at h
      simp only at h
      have hfs0 : fileSize file = 0 := by
        simp [fileSize, hl]; intro hc; exact absurd hc.symm typeFile_ne_typeLink
      by_cases hd : st.IsDir = true
      · simp only [hd, if_true] at h
        cases hw : Walk fs fuel wd { c with Concat := false } (Abs wd1 linkFile)
            file.Destination with
        | none => rw [hw] at h; cases h
        | some c2 =>
          rw [hw] at h
          simp only [Option.some.injEq] at h
          obtain ⟨suf, ⟨e1, e2, er, e3, e4, e5⟩, hcase⟩ := Walk_ext hw
          have hc2 : c2.Concat = false := by
            rcases hcase with ⟨hc, _⟩ | ⟨hc, _⟩
            · exact hc
            · exact hc
          have e1' : c2.Files = pre ++ file :: (rest ++ tail ++ suf) := by
            rw [e1]; simp [hF2]
          obtain ⟨x, hxT, hc1⟩ : ∃ x : files, x.Typ = TypeDir ∧
              c1 = { c2 with Files := c2.Files.set i x } := ⟨_, rfl, h.symm⟩
          subst hc1
          have hfx : fileSize x = 0 := by
            simp [fileSize, hxT]; intro hc; exact absurd hc.symm typeFile_ne_typeDir
          refine ⟨pre ++ [x], tail ++ suf, ?_, by simp [hlen], by simp [e3]; exact hp, ?_,
            er hin, by simp [e4]; exact hcb, by simp [e5]; exact hrl, ?_, ?_⟩
          · simp only [e1', ← hlen, set_at_length]
            simp
          · have hs1 := hsum
            rw [hF2] at hs1
            simp only [sumSizes_append, sumSizes_cons, hfs0] at hs1
            have e2' : c2.TotalSize % 18446744073709551616
                = (c.TotalSize + sumSizes suf) % 18446744073709551616 := e2
            simp only [e1', ← hlen, set_at_length, sumSizes_append, sumSizes_cons, hfx]
            omega
          · intro hc; simp [hc2] at hc
          · intro _
            simp only [e1', ← hlen, set_at_length]
            exact ⟨x, by simp, hxT⟩
      · have hd' : st.IsDir = false := by simpa using hd
        by_cases hreg : st.IsRegular = true
        · simp only [hd', hreg, if_true, if_false, Bool.false_eq_true, Option.some.injEq] at h
          obtain ⟨x, hxT, hxL, hc1⟩ : ∃ x : files, x.Typ = TypeFile ∧ x.LinkFileLstat = some st ∧
              c1 = { c with TotalSize := int64 (c.TotalSize + st.size),
                            Files := c.Files.set i x } :=
            ⟨_, rfl, rfl, h.symm⟩
          subst hc1
          have hfx : fileSize x = st.size := by simp [fileSize, hxT, hxL]
          refine ⟨pre ++ [x], tail, ?_, by simp [hlen], hp, ?_, inInt64_int64 _, hcb, hrl, ?_,
            ?_⟩
          · simp only [hF2, ← hlen, set_at_length]
            simp
          · have hs1 := hsum
            rw [hF2] at hs1
            simp only [sumSizes_append, sumSizes_cons, hfs0] at hs1
            simp only [hF2, ← hlen, set_at_length, sumSizes_append, sumSizes_cons, hfx,
              int64_mod]
            omega
          · intro hc
            obtain ⟨ht, hpre, hrest⟩ := hct hc
            refine ⟨ht, ?_, fun f hf => hrest f (List.mem_cons_of_mem _ hf)⟩
            intro f hf
            rcases List.mem_append.mp hf with hf | hf
            · exact hpre f hf
            · simp only [List.mem_singleton] at hf
              subst hf; exact hxT
          · intro hc
            obtain ⟨f, hf, ht⟩ := hcf hc
            simp only [hF2, ← hlen, set_at_length]
            rw [hF2] at hf
            refine ⟨f, ?_, ht⟩
            simp only [List.mem_append, List.mem_cons] at hf ⊢
            rcases hf with hf | hf | hf | hf
            · exact Or.inl hf
            · subst hf; rw [hl] at ht; exact absurd ht typeLink_ne_typeDir
            · exact Or.inr (Or.inr (Or.inl hf))
            · exact Or.inr (Or.inr (Or.inr hf))
        · have hreg' : st.IsRegular = false := by simpa using hreg
          simp [hd', hreg', hns] at h
  · simp only [hl, if_false, Option.some.injEq] at h
    subst h
    refine ⟨pre ++ [file], tail, by simp [hF], by simp [hlen], hp, hsum, hin, hcb, hrl, ?_, hcf⟩
    intro hc
    obtain ⟨ht, hpre, hrest⟩ := hct hc
    refine ⟨ht, ?_, fun f hf => hrest f (List.mem_cons_of_mem _ hf)⟩
    intro f hf
    rcases List.mem_append.mp hf with hf | hf
    · exact hpre f hf
    · simp only [List.mem_singleton] at hf
      subst hf
      rcases hrest f (List.mem_cons_self _ _) with h | h
      · exact h
      · exact absurd h hl

theorem loop_loopInv (fs : FileSystem) (fuel : Nat) (wd : String) :
    ∀ (rest : List files) (i : Nat) (c c1 : CopyStruct), LoopInv rest i c →
      walkSymlinksLoop fs fuel wd rest i c = some c1 → LoopInv [] (i + rest.length) c1 := by
  intro rest
  induction rest with
  | nil =>
    intro i c c1 hinv h
    simp only [walkSymlinksLoop, Option.some.injEq] at h
    subst h; simpa using hinv
  | cons file rest ih =>
    intro i c c1 hinv h
    unfold walkSymlinksLoop at h
    cases hv : walkSymlinksVisit fs fuel wd i file c with
    | none => rw [hv] at h; cases h
    | some c2 =>
      rw [hv] at h
      have := ih (i + 1) c2 c1 (visit_loopInv hinv hv) h
      simpa [Nat.add_assoc, Nat.add_comm 1] using this

theorem int64_of_mod {x y : Int}
    (h : x % 18446744073709551616 = y % 18446744073709551616) (hx : InInt64 x) :
    x = int64 y := by
  unfold int64; unfold InInt64 at hx; omega

/-- What the enumeration of `main` establishes. -/
theorem mainEnumerate_spec {fs : FileSystem} {fuel : Nat} {wd : String} {conf : Config}
    {c : CopyStruct} (h : mainEnumerate fs fuel wd conf = some c) :
    c.TotalSize = int64 (sumSizes c.Files) ∧ c.CopiedBytes = 0 ∧ c.readlen = (0, 0) ∧
      (c.Concat = true ↔ (∀ f ∈ c.Files, f.Typ = TypeFile) ∧
        (fs.stat wd (destArg conf.Files.tail) = none ∨
          ∃ st, fs.stat wd (destArg conf.Files.tail) = some st ∧ st.IsRegular = true)) := by
  unfold mainEnumerate at h
  split_ifs at h with hb hlen
  simp only at h
  cases hfold : List.foldlM (fun c source => Walk fs fuel wd c source (destArg conf.Files.tail))
      { CopyStruct.new { conf with Files := conf.Files.tail } with Concat := true }
      conf.Files.tail.dropLast with
  | none => rw [hfold] at h; cases h
  | some c1 =>
    rw [hfold] at h
    simp only at h
    have hinv1 : EnumInv conf.PreserveSymlink c1 :=
      foldlM_option_inv _ (EnumInv conf.PreserveSymlink)
        (fun b a b1 hb hfa => Walk_enumInv hb hfa) _ _ _
        ⟨rfl, rfl, by simp [CopyStruct.new, InInt64], rfl, rfl,
          by intro _ f hf; simp [CopyStruct.new] at hf,
          by intro hc; simp at hc⟩ hfold
    -- after the optional `WalkSymlinks`
    have hmid : ∀ c2, (if c1.Conf.PreserveSymlink = false then WalkSymlinks fs fuel wd c1
        else some c1) = some c2 →
        c2.TotalSize = int64 (sumSizes c2.Files) ∧ c2.CopiedBytes = 0 ∧ c2.readlen = (0, 0) ∧
          (c2.Concat = true ↔ ∀ f ∈ c2.Files, f.Typ = TypeFile) := by
      intro c2 h2
      obtain ⟨i1, i2, ir, i3, i4, i5, i6⟩ := hinv1
      by_cases hp : c1.Conf.PreserveSymlink = false
      · simp only [hp, if_true] at h2
        unfold WalkSymlinks at h2
        have hstart : LoopInv c1.Files 0 c1 := by
          refine ⟨[], [], by simp, rfl, hp, i2, ir, i3, i4, ?_, ?_⟩
          · intro hc
            refine ⟨rfl, by simp, ?_⟩
            intro f hf
            rcases i5 hc f hf with h | ⟨h, _⟩
            · exact Or.inl h
            · exact Or.inr h
          · intro hc
            obtain ⟨f, hf, ht⟩ := i6 hc
            rcases ht with ht | ⟨_, ht⟩
            · exact ⟨f, hf, ht⟩
            · rw [← i1, hp] at ht; cases ht
        obtain ⟨pre, tail, hF, _, _, hsum, hin, hcb, hrl, hct, hcf⟩ :=
          loop_loopInv fs fuel wd _ _ _ _ hstart h2
        refine ⟨int64_of_mod hsum hin, hcb, hrl, ?_⟩
        constructor
        · intro hc
          obtain ⟨ht, hpre, _⟩ := hct hc
          intro f hf
          rw [hF, ht] at hf
          simp only [List.append_nil] at hf
          exact hpre f hf
        · intro hall
          by_contra hc
          have hc' : c2.Concat = false := by simpa using hc
          obtain ⟨f, hf, ht⟩ := hcf hc'
          have := hall f hf
          rw [ht] at this
          exact typeFile_ne_typeDir this.symm
      · have hp' : c1.Conf.PreserveSymlink = true := by simpa using hp
        simp only [hp', if_false, Bool.true_eq_false, Option.some.injEq] at h2
        subst h2
        refine ⟨int64_of_mod i2 ir, i3, i4, ?_⟩
        constructor
        · intro hc f hf
          rcases i5 hc f hf with h | ⟨_, h⟩
          · exact h
          · rw [← i1, hp'] at h; cases h
        · intro hall
          by_contra hc
          have hc' : c1.Concat = false := by simpa using hc
          obtain ⟨f, hf, ht⟩ := i6 hc'
          have := hall f hf
          rcases ht with ht | ⟨ht, _⟩
          · rw [ht] at this; exact typeFile_ne_typeDir this.symm
          · rw [ht] at this; exact typeFile_ne_typeLink this.symm
    cases hres : (if c1.Conf.PreserveSymlink = false then WalkSymlinks fs fuel wd c1
        else some c1) with
    | none => rw [hres] at h; cases h
    | some c2 =>
      rw [hres] at h
      simp only at h
      obtain ⟨m1, m2, m3, m4⟩ := hmid c2 hres
      cases hst : fs.stat wd (destArg conf.Files.tail) with
      | none =>
        rw [hst] at h
        simp only [Option.some.injEq] at h
        subst h
        exact ⟨m1, m2, m3, by simp [m4]⟩
      | some st =>
        rw [hst] at h
        simp only at h
        by_cases hreg : st.IsRegular = true
        · simp only [hreg, if_true, Option.some.injEq] at h
          subst h
          exact ⟨m1, m2, m3, by simp [m4, hreg]⟩
        · simp only [hreg, if_false, Option.some.injEq, Bool.false_eq_true] at h
          subst h
          refine ⟨m1, m2, m3, ?_⟩
          simp [hreg]

/-! ## Byte accounting of the pipeline -/

theorem fileSize_nonneg (f : files) : 0 ≤ fileSize f := by
  unfold fileSize
  split_ifs
  · cases f.LinkFileLstat <;> simp
  · exact le_refl 0

theorem sumSizes_nonneg (l : List files) : 0 ≤ sumSizes l := by
  induction l with
  | nil => simp [sumSizes]
  | cons f l ih => rw [sumSizes_cons]; have := fileSize_nonneg f; omega

theorem inflight_nonneg (rl : Int × Int) : 0 ≤ inflight rl := by
  unfold inflight; omega

theorem inflight_upd (rl : Int × Int) (o : Nat) (v : Int) :
    inflight (upd rl o v) = inflight rl - max (sel rl o) 0 + max v 0 := by
  unfold inflight upd sel
  split_ifs <;> (simp; try omega)

theorem okLen_upd {rl : Int × Int} (o : Nat) (v : Int) (h1 : OkLen rl.1) (h2 : OkLen rl.2)
    (hv : OkLen v) : OkLen (upd rl o v).1 ∧ OkLen (upd rl o v).2 := by
  unfold upd
  split_ifs
  · exact ⟨hv, h2⟩
  · exact ⟨h1, hv⟩

theorem okLen_sel {rl : Int × Int} (o : Nat) (h1 : OkLen rl.1) (h2 : OkLen rl.2) :
    OkLen (sel rl o) := by
  unfold sel
  split_ifs
  · exact h1
  · exact h2

theorem sumSizes_drop {Files : List files} {ll : Nat} {file : files}
    (h : Files.get? ll = some file) :
    sumSizes (Files.drop ll) = fileSize file + sumSizes (Files.drop (ll + 1)) := by
  have hlt : ll < Files.length := (List.get?_eq_some.mp h).1
  have hget : Files[ll] = file := by
    have := (List.get?_eq_some.mp h).2
    simpa using this
  rw [List.drop_eq_getElem_cons hlt, sumSizes_cons, hget]

theorem readFilesStep_inv {fs : FileSystem} {wd : String} {Files : List files} {Total : Int}
    (hread : SizesAsRecorded fs wd Files) {s t : State} (hinv : PipeInv Files Total s)
    (h : readFilesStep fs wd s = some t) : PipeInv Files Total t := by
  obtain ⟨hF, hT, hsum, hl1, hl2, hdone⟩ := hinv
  unfold readFilesStep at h
  cases hpc : s.rd.pc with
  | outer =>
    rw [hpc] at h
    simp only at h
    have hpend : pending s = sumSizes (s.c.Files.drop s.rd.ll) := by
      unfold pending; rw [hpc]
    cases hg : s.c.Files.get? s.rd.ll with
    | none =>
      rw [hg] at h
      simp only [Option.some.injEq] at h
      subst h
      refine ⟨hF, hT, ?_, hl1, hl2, hdone⟩
      have : pending { s with rd := { s.rd with pc := RPc.done } } = 0 := rfl
      rw [this]
      have := sumSizes_nonneg (s.c.Files.drop s.rd.ll)
      try simp only at hsum ⊢
      omega
    | some file =>
      rw [hg] at h
      simp only at h
      have hdrop := sumSizes_drop hg
      have hnn := fileSize_nonneg file
      by_cases hty : file.Typ = TypeFile
      · simp only [hty, if_true] at h
        by_cases hz : file.lStat.size = 0
        · simp only [hz, if_true] at h
          by_cases hr0 : sel s.c.readlen s.rd.offset = 0
          · simp only [hr0, if_true, Option.some.injEq] at h
            subst h
            have hok := okLen_upd s.rd.offset (-2) hl1 hl2 (Or.inl rfl)
            refine ⟨hF, hT, ?_, hok.1, hok.2, hdone⟩
            simp only [inflight_upd, hr0]
            have : pending { s with
                c := { s.c with readlen := upd s.c.readlen s.rd.offset (-2),
                                bufferFileNo := upd s.c.bufferFileNo s.rd.offset s.rd.ll }
                rd := { s.rd with offset := flip s.rd.offset, ll := s.rd.ll + 1 }
                events := if s.c.Conf.DeleteFirst = true
                  then s.events ++ [Event.removeExisting s.rd.ll] else s.events }
                = sumSizes (s.c.Files.drop (s.rd.ll + 1)) := by
              unfold pending; simp only [hpc]
            rw [this]
            simp
            omega
          · simp only [hr0, if_false, Option.some.injEq] at h
            subst h
            refine ⟨hF, hT, ?_, hl1, hl2, hdone⟩
            have : pending { s with
                rd := { s.rd with ll := s.rd.ll + 1 }
                events := if s.c.Conf.DeleteFirst = true
                  then s.events ++ [Event.removeExisting s.rd.ll] else s.events }
                = sumSizes (s.c.Files.drop (s.rd.ll + 1)) := by
              unfold pending; simp only [hpc]
            rw [this]
            try simp only at hsum ⊢
            omega
        · simp only [hz, if_false, Option.some.injEq] at h
          subst h
          refine ⟨hF, hT, ?_, hl1, hl2, hdone⟩
          have : pending { s with
              rd := { s.rd with pc := RPc.recv, rest := fs.readFile wd file.Source }
              events := if s.c.Conf.DeleteFirst = true
                then s.events ++ [Event.removeExisting s.rd.ll] else s.events }
              = (fs.readFile wd file.Source).length + sumSizes (s.c.Files.drop (s.rd.ll + 1)) := rfl
          rw [this]
          have hmem : file ∈ Files := by
            rw [← hF]; exact List.get?_mem hg
          have := hread file hmem hty
          try simp only at hsum ⊢
          omega
      · simp only [hty, if_false, Option.some.injEq] at h
        subst h
        refine ⟨hF, hT, ?_, hl1, hl2, hdone⟩
        have : pending { s with rd := { s.rd with ll := s.rd.ll + 1 } }
            = sumSizes (s.c.Files.drop (s.rd.ll + 1)) := by
          unfold pending; simp only [hpc]
        rw [this]
        try simp only at hsum ⊢
        omega
  | recv =>
    rw [hpc] at h
    simp only at h
    have hpend : pending s = s.rd.rest.length + sumSizes (s.c.Files.drop (s.rd.ll + 1)) := by
      unfold pending; rw [hpc]
    have hsplit : (s.rd.rest.length : Int)
        = (s.rd.rest.take s.c.Conf.BufSize.toNat).length
          + (s.rd.rest.drop s.c.Conf.BufSize.toNat).length := by
      have := congrArg List.length (List.take_append_drop s.c.Conf.BufSize.toNat s.rd.rest)
      rw [List.length_append] at this
      omega
    have hnn := sumSizes_nonneg (s.c.Files.drop (s.rd.ll + 1))
    by_cases hw : sel s.c.w2r s.rd.offset = 0
    · simp only [hw, if_true] at h; cases h
    · simp only [hw, if_false] at h
      by_cases hr0 : sel s.c.readlen s.rd.offset = 0
      · simp only [hr0, if_true] at h
        by_cases hc : (s.rd.rest.take s.c.Conf.BufSize.toNat).length ≠ 0
        · simp only [hc, if_true, ne_eq, not_false_eq_true, Option.some.injEq] at h
          subst h
          have hok := okLen_upd s.rd.offset ((s.rd.rest.take s.c.Conf.BufSize.toNat).length : Int)
            hl1 hl2 (Or.inr (by omega))
          refine ⟨hF, hT, ?_, hok.1, hok.2, hdone⟩
          simp only [pending, inflight_upd, hr0]
          rw [hpend] at hsum
          try simp only at hsum ⊢
          omega
        · simp only [hc, if_false] at h
          by_cases hb : s.c.Conf.BufSize.toNat ≠ 0
          · simp only [hb, if_true, ne_eq, not_false_eq_true, Option.some.injEq] at h
            subst h
            refine ⟨hF, hT, ?_, hl1, hl2, hdone⟩
            simp only [pending]
            rw [hpend] at hsum
            try simp only at hsum ⊢
            omega
          · simp only [hb, if_false, Option.some.injEq] at h
            subst h
            refine ⟨hF, hT, ?_, hl1, hl2, hdone⟩
            simp only [pending, hpc]
            rw [hpend] at hsum
            exact hsum
      · simp only [hr0, if_false, Option.some.injEq] at h
        subst h
        refine ⟨hF, hT, ?_, hl1, hl2, hdone⟩
        simp only [pending, hpc]
        rw [hpend] at hsum
        exact hsum
  | send =>
    rw [hpc] at h
    simp only at h
    have hpend : pending s = s.rd.rest.length + sumSizes (s.c.Files.drop (s.rd.ll + 1)) := by
      unfold pending; rw [hpc]
    by_cases hw : sel s.c.r2w s.rd.offset ≠ 0
    · simp only [hw, if_true, ne_eq, not_false_eq_true] at h; cases h
    · simp only [hw, if_false, Option.some.injEq] at h
      subst h
      refine ⟨hF, hT, ?_, hl1, hl2, hdone⟩
      simp only [pending]
      rw [hpend] at hsum
      exact hsum
  | done => rw [hpc] at h; cases h

theorem pending_congr {s t : State} (h1 : t.rd = s.rd) (h2 : t.c.Files = s.c.Files) :
    pending t = pending s := by
  unfold pending; rw [h1, h2]

theorem payload_c (s : State) :
    (payload s).c
      = { s.c with
          CopiedBytes := copiedAfter s.c.CopiedBytes (sel s.c.readlen s.wr.offset) } := by
  unfold payload copiedAfter; dsimp only; split_ifs <;> rfl

theorem pending_nonneg (s : State) : 0 ≤ pending s := by
  unfold pending
  cases s.rd.pc
  · exact sumSizes_nonneg _
  · have := sumSizes_nonneg (s.c.Files.drop (s.rd.ll + 1)); simp only; omega
  · have := sumSizes_nonneg (s.c.Files.drop (s.rd.ll + 1)); simp only; omega
  · exact le_refl 0

theorem sel_le_inflight (rl : Int × Int) (o : Nat) : max (sel rl o) 0 ≤ inflight rl := by
  unfold inflight sel
  split_ifs <;> omega

theorem copiedAfter_eq {copied n bound : Int} (hn : OkLen n) (h0 : 0 ≤ copied)
    (hle : copied + max n 0 ≤ bound) (hb : bound < 9223372036854775808) :
    copiedAfter copied n = copied + max n 0 := by
  unfold copiedAfter
  rcases hn with h | h
  · subst h; simp
  · have : ¬ n = -2 := by omega
    simp only [this, if_false]
    rw [int64_eq_self (by unfold InInt64; omega)]
    omega

theorem writerRecv_nonzero (s : State) (hz : sel s.c.readlen s.wr.offset ≠ 0) :
    (writerRecv s).c.Files = s.c.Files ∧ (writerRecv s).c.TotalSize = s.c.TotalSize ∧
      (writerRecv s).c.CopiedBytes = copiedAfter s.c.CopiedBytes (sel s.c.readlen s.wr.offset) ∧
      (writerRecv s).c.readlen = upd s.c.readlen s.wr.offset 0 ∧
      (writerRecv s).rd = s.rd ∧ (writerRecv s).wr.pc = WPc.send := by
  unfold writerRecv
  simp only [hz, ne_eq, not_false_eq_true, if_true]
  by_cases hll : s.wr.ll = ((sel s.c.bufferFileNo s.wr.offset : Nat) : Int)
  · simp only [hll, not_true_eq_false, if_false, payload_c, payload_wr, payload_rd]
    simp
  · simp only [hll, not_false_eq_true, if_true, payload_c, payload_wr, payload_rd, boundary_c,
      boundary_rd, boundary_offset]
    simp

theorem writerRecv_bufferFileNo (s : State) :
    (writerRecv s).c.bufferFileNo = s.c.bufferFileNo := by
  unfold writerRecv
  split_ifs <;> simp [payload_c, boundary_c]

theorem written_eq_max {n : Int} (h : OkLen n) : written n = max n 0 := by
  unfold written
  rcases h with h | h
  · subst h; rfl
  · have : ¬ n = -2 := by omega
    simp only [this, if_false]
    omega

theorem writeFilesStep_inv {Files : List files} {Total : Int} {s t : State}
    (hinv : PipeInv Files Total s) (h : writeFilesStep s = some t) : PipeInv Files Total t := by
  obtain ⟨hF, hT, hsum, hl1, hl2, hc0, hfit, hdone⟩ := hinv
  unfold writeFilesStep at h
  cases hpc : s.wr.pc with
  | loop =>
    rw [hpc] at h
    simp only at h
    by_cases hgt : s.c.TotalSize > s.c.CopiedBytes
    · simp only [hgt, if_true] at h
      by_cases hr : sel s.c.r2w s.wr.offset = 0
      · simp only [hr, if_true] at h; cases h
      · simp only [hr, if_false, Option.some.injEq] at h
        subst h
        unfold writerRecv
        by_cases hz : sel s.c.readlen s.wr.offset = 0
        · simp only [hz, ne_eq, not_true_eq_false, if_false]
          refine ⟨hF, hT, ?_, hl1, hl2, hc0, hfit, ?_⟩
          · exact hsum
          · intro hd; rw [hpc] at hd; cases hd
        · obtain ⟨r1, r2, r3, r4, r5, r6⟩ := writerRecv_nonzero
            { s with c := { s.c with
              r2w := upd s.c.r2w s.wr.offset (sel s.c.r2w s.wr.offset - 1) } } hz
          have hok := okLen_upd s.wr.offset 0 hl1 hl2 (Or.inr (le_refl 0))
          have hpend := pending_congr r5 r1
          unfold writerRecv at r1 r2 r3 r4 r6 hpend
          have hp0 := pending_nonneg s
          have hsl := sel_le_inflight s.c.readlen s.wr.offset
          have hca : copiedAfter s.c.CopiedBytes (sel s.c.readlen s.wr.offset)
              = s.c.CopiedBytes + max (sel s.c.readlen s.wr.offset) 0 :=
            copiedAfter_eq (okLen_sel s.wr.offset hl1 hl2) hc0 (by omega) hfit
          refine ⟨r1.trans hF, r2.trans hT, ?_, by rw [r4]; exact hok.1, by rw [r4]; exact hok.2,
            ?_, hfit, ?_⟩
          · rw [r3, r4, hpend, inflight_upd]
            have hp2 : pending { s with c := { s.c with
              r2w := upd s.c.r2w s.wr.offset (sel s.c.r2w s.wr.offset - 1) } } = pending s := rfl
            rw [hp2]
            simp only [max_self]
            simp only at hca ⊢
            rw [hca]
            omega
          · rw [r3]
            simp only at hca ⊢
            rw [hca]
            omega
          · intro hd; rw [r6] at hd; cases hd
    · simp only [hgt, if_false, Option.some.injEq] at h
      subst h
      refine ⟨hF, hT, ?_, hl1, hl2, hc0, hfit, ?_⟩
      · exact hsum
      · intro _
        show Total ≤ s.c.CopiedBytes
        rw [← hT]; omega
  | send =>
    rw [hpc] at h
    simp only at h
    by_cases hw : sel s.c.w2r s.wr.offset ≠ 0
    · simp only [hw, if_true, ne_eq, not_false_eq_true] at h; cases h
    · simp only [hw, if_false, Option.some.injEq] at h
      subst h
      refine ⟨hF, hT, ?_, hl1, hl2, hc0, hfit, ?_⟩
      · exact hsum
      · intro hd; cases hd
  | done => rw [hpc] at h; cases h

theorem reachable_inv {fs : FileSystem} {wd : String} {Files : List files} {Total : Int}
    (hread : SizesAsRecorded fs wd Files) {s0 s : State} (h0 : PipeInv Files Total s0)
    (h : Reachable fs wd s0 s) : PipeInv Files Total s := by
  induction h with
  | refl => exact h0
  | step _ hstep ih =>
    rcases hstep with hr | hw
    · exact readFilesStep_inv hread ih hr
    · exact writeFilesStep_inv ih hw

theorem pipeInv_init {c : CopyStruct} (h1 : c.TotalSize = sumSizes c.Files)
    (h2 : c.CopiedBytes = 0) (h3 : c.readlen = (0, 0))
    (hfit : c.TotalSize < 9223372036854775808) :
    PipeInv c.Files c.TotalSize (State.init c) := by
  refine ⟨rfl, rfl, ?_, ?_, ?_, ?_, hfit, ?_⟩
  · show c.CopiedBytes + inflight c.readlen + sumSizes (c.Files.drop 0) ≤ c.TotalSize
    rw [h2, h3, List.drop_zero, h1]
    simp [inflight]
  · show OkLen c.readlen.1
    rw [h3]; exact Or.inr (le_refl 0)
  · show OkLen c.readlen.2
    rw [h3]; exact Or.inr (le_refl 0)
  · show 0 ≤ c.CopiedBytes
    rw [h2]
  · intro hd; cases hd

/-! ## The handoffs the reader produces -/

theorem sel_upd_cases {α : Type} (p : α × α) (o o1 : Nat) (v : α) :
    sel (upd p o v) o1 = v ∨ sel (upd p o v) o1 = sel p o1 := by
  unfold sel upd
  split_ifs <;> simp

theorem sel_upd_both {α β : Type} (p : α × α) (q : β × β) (o o1 : Nat) (v : α) (w : β) :
    (sel (upd p o v) o1 = v ∧ sel (upd q o w) o1 = w) ∨
      (sel (upd p o v) o1 = sel p o1 ∧ sel (upd q o w) o1 = sel q o1) := by
  unfold sel upd
  split_ifs <;> simp

theorem readFilesStep_sentInv {fs : FileSystem} {wd : String} {Files : List files} {s t : State}
    (hinv : SentInv Files s) (h : readFilesStep fs wd s = some t) : SentInv Files t := by
  obtain ⟨hF, hsent, hpw, hcur, hbuf, hrl⟩ := hinv
  have hmono : ∀ n, s.rd.ll ≤ n → ∀ x ∈ s.rd.sent, IsFileIndex Files x.2.1 ∧ x.2.1 ≤ n :=
    fun n hn x hx => ⟨(hsent x hx).1, le_trans (hsent x hx).2 hn⟩
  unfold readFilesStep at h
  cases hpc : s.rd.pc with
  | outer =>
    rw [hpc] at h
    simp only at h
    cases hg : s.c.Files.get? s.rd.ll with
    | none =>
      rw [hg] at h
      simp only [Option.some.injEq] at h
      subst h
      exact ⟨hF, hsent, hpw, by simp, by simp, hrl⟩
    | some file =>
      rw [hg] at h
      simp only at h
      by_cases hty : file.Typ = TypeFile
      · have hfile : IsFileIndex Files s.rd.ll := by
          rw [← hF]; exact isFileIndex_iff.mpr ⟨file, hg, hty⟩
        simp only [hty, if_true] at h
        by_cases hz : file.lStat.size = 0
        · simp only [hz, if_true] at h
          by_cases hr0 : sel s.c.readlen s.rd.offset = 0
          · simp only [hr0, if_true, Option.some.injEq] at h
            subst h
            refine ⟨hF, hmono _ (Nat.le_succ _), hpw, by simp [hpc], by simp [hpc], ?_⟩
            intro o ho
            simp only at ho ⊢
            rcases sel_upd_both s.c.readlen s.c.bufferFileNo s.rd.offset o (-2) s.rd.ll with
              ⟨_, h2⟩ | ⟨h1, h2⟩
            · rw [h2]; exact hfile
            · rw [h2]; rw [h1] at ho; exact hrl o ho
          · simp only [hr0, if_false, Option.some.injEq] at h
            subst h
            exact ⟨hF, hmono _ (Nat.le_succ _), hpw, by simp [hpc], by simp [hpc], hrl⟩
        · simp only [hz, if_false, Option.some.injEq] at h
          subst h
          exact ⟨hF, hsent, hpw, fun _ => hfile, by simp, hrl⟩
      · simp only [hty, if_false, Option.some.injEq] at h
        subst h
        exact ⟨hF, hmono _ (Nat.le_succ _), hpw, by simp [hpc], by simp [hpc], hrl⟩
  | recv =>
    rw [hpc] at h
    simp only at h
    have hfile := hcur (Or.inl hpc)
    by_cases hw : sel s.c.w2r s.rd.offset = 0
    · simp only [hw, if_true] at h; cases h
    · simp only [hw, if_false] at h
      by_cases hr0 : sel s.c.readlen s.rd.offset = 0
      · simp only [hr0, if_true] at h
        by_cases hc : (s.rd.rest.take s.c.Conf.BufSize.toNat).length ≠ 0
        · simp only [hc, if_true, ne_eq, not_false_eq_true, Option.some.injEq] at h
          subst h
          refine ⟨hF, hsent, hpw, fun _ => hfile, fun _ => sel_upd _ _ _, ?_⟩
          intro o ho
          simp only at ho ⊢
          rcases sel_upd_both s.c.readlen s.c.bufferFileNo s.rd.offset o
              ((s.rd.rest.take s.c.Conf.BufSize.toNat).length : Int) s.rd.ll with
            ⟨_, h2⟩ | ⟨h1, h2⟩
          · rw [h2]; exact hfile
          · rw [h2]; rw [h1] at ho; exact hrl o ho
        · simp only [hc, if_false] at h
          by_cases hb : s.c.Conf.BufSize.toNat ≠ 0
          · simp only [hb, if_true, ne_eq, not_false_eq_true, Option.some.injEq] at h
            subst h
            exact ⟨hF, hmono _ (Nat.le_succ _), hpw, by simp, by simp, hrl⟩
          · simp only [hb, if_false, Option.some.injEq] at h
            subst h
            exact ⟨hF, hsent, hpw, hcur, hbuf, hrl⟩
      · simp only [hr0, if_false, Option.some.injEq] at h
        subst h
        exact ⟨hF, hsent, hpw, hcur, hbuf, hrl⟩
  | send =>
    rw [hpc] at h
    simp only at h
    have hfile := hcur (Or.inr hpc)
    have hb := hbuf hpc
    by_cases hw : sel s.c.r2w s.rd.offset ≠ 0
    · simp only [hw, if_true, ne_eq, not_false_eq_true] at h; cases h
    · simp only [hw, if_false, Option.some.injEq] at h
      subst h
      refine ⟨hF, ?_, ?_, fun _ => hfile, by simp, hrl⟩
      · intro x hx
        simp only [List.mem_append, List.mem_singleton] at hx
        rcases hx with hx | hx
        · exact hsent x hx
        · subst hx
          simp only [hb]
          exact ⟨hfile, le_refl _⟩
      · simp only [List.pairwise_append, List.pairwise_singleton, List.mem_singleton, and_true]
        refine ⟨hpw, trivial, ?_⟩
        intro a ha b hbb
        subst hbb
        simp only [hb]
        exact (hsent a ha).2
  | done => rw [hpc] at h; cases h

theorem writeFilesStep_sentInv {Files : List files} {s t : State}
    (hinv : SentInv Files s) (h : writeFilesStep s = some t) : SentInv Files t := by
  obtain ⟨hF, hsent, hpw, hcur, hbuf, hrl⟩ := hinv
  unfold writeFilesStep at h
  cases hpc : s.wr.pc with
  | loop =>
    rw [hpc] at h
    simp only at h
    by_cases hgt : s.c.TotalSize > s.c.CopiedBytes
    · simp only [hgt, if_true] at h
      by_cases hr : sel s.c.r2w s.wr.offset = 0
      · simp only [hr, if_true] at h; cases h
      · simp only [hr, if_false, Option.some.injEq] at h
        subst h
        by_cases hz : sel s.c.readlen s.wr.offset = 0
        · unfold writerRecv
          simp only [hz, ne_eq, not_true_eq_false, if_false]
          exact ⟨hF, hsent, hpw, hcur, hbuf, hrl⟩
        · obtain ⟨r1, _, _, r4, r5, _⟩ := writerRecv_nonzero
            { s with c := { s.c with
              r2w := upd s.c.r2w s.wr.offset (sel s.c.r2w s.wr.offset - 1) } } hz
          have r7 := writerRecv_bufferFileNo
            { s with c := { s.c with
              r2w := upd s.c.r2w s.wr.offset (sel s.c.r2w s.wr.offset - 1) } }
          refine ⟨r1.trans hF, by rw [r5]; exact hsent, by rw [r5]; exact hpw,
            by rw [r5]; exact hcur, by rw [r5, r7]; exact hbuf, ?_⟩
          intro o ho
          rw [r4] at ho
          rw [r7]
          rcases sel_upd_cases s.c.readlen s.wr.offset o 0 with h1 | h1
          · simp only at ho h1; rw [h1] at ho; exact absurd rfl ho
          · simp only at ho h1; rw [h1] at ho; exact hrl o ho
    · simp only [hgt, if_false, Option.some.injEq] at h
      subst h
      exact ⟨hF, hsent, hpw, hcur, hbuf, hrl⟩
  | send =>
    rw [hpc] at h
    simp only at h
    by_cases hw : sel s.c.w2r s.wr.offset ≠ 0
    · simp only [hw, if_true, ne_eq, not_false_eq_true] at h; cases h
    · simp only [hw, if_false, Option.some.injEq] at h
      subst h
      exact ⟨hF, hsent, hpw, hcur, hbuf, hrl⟩
  | done => rw [hpc] at h; cases h

/-- In every state the pipeline reaches from the start, the handoffs the
reader has sent name File entries in non-decreasing order, and a buffer whose
`readlen` is not 0 names a File entry: the handoffs `writeFilesOn` is given. -/
theorem reachable_handoffs_name_files (fs : FileSystem) (wd : String) (c : CopyStruct)
    (h0 : c.readlen = (0, 0)) (s : State) (h : Reachable fs wd (State.init c) s) :
    (∀ x ∈ s.rd.sent, IsFileIndex c.Files x.2.1) ∧
      s.rd.sent.Pairwise (fun a b => a.2.1 ≤ b.2.1) ∧
      (∀ o, sel s.c.readlen o ≠ 0 → IsFileIndex c.Files (sel s.c.bufferFileNo o)) := by
  have key : SentInv c.Files s := by
    induction h with
    | refl =>
      refine ⟨rfl, by simp [State.init], by simp [State.init], by simp [State.init],
        by simp [State.init], ?_⟩
      intro o ho
      exfalso; apply ho
      show sel c.readlen o = 0
      rw [h0]; unfold sel; split_ifs <;> rfl
    | step _ hstep ih =>
      rcases hstep with hr | hw
      · exact readFilesStep_sentInv ih hr
      · exact writeFilesStep_sentInv ih hw
  exact ⟨fun x hx => (key.2.1 x hx).1, key.2.2.1, key.2.2.2.2.2⟩

theorem reachable_sched (fs : FileSystem) (wd : String) (n : Nat) (s : State) :
    Reachable fs wd s (sched fs wd n s) := by
  suffices h : ∀ (n : Nat) (t : State), Reachable fs wd s t → Reachable fs wd s (sched fs wd n t)
    from h n s Reachable.refl
  intro n
  induction n with
  | zero => intro t ht; exact ht
  | succ n ih =>
    intro t ht
    unfold sched
    cases hr : readFilesStep fs wd t with
    | some u => exact ih u (Reachable.step ht (Or.inl hr))
    | none =>
      cases hw : writeFilesStep t with
      | some u => exact ih u (Reachable.step ht (Or.inr hw))
      | none => exact ht

/-- C1 (failing input): `acp e out` with `e` an empty regular file and `out`
absent runs in concat mode; both goroutines return, and the only call made on
the destination is the `Close` of the nil handle: `out` is never opened, so it
does not exist after the run. -/
theorem concat_empty_source_never_opened :
    ∃ s, copyRun fsFiles "/w" (conf0 ["e", "out"]) 10 = some s ∧
      s.c.Concat = true ∧ s.c.Files.map files.summary = [("e", "out", TypeFile)] ∧
      s.rd.pc = RPc.done ∧ s.wr.pc = WPc.done ∧ s.events = [Event.close none] := by
  refine ⟨(copyRun fsFiles "/w" (conf0 ["e", "out"]) 10).get (by decide), by simp, ?_⟩
  decide

/-- C2 (failing input): `acp -s 2 f g out` with `f` of 3 bytes and `g` of 2
bytes. A reachable state has the reader blocked at the receive on `w2r[0]` for
the second file and the writer blocked at the receive on `r2w[0]` with
`CopiedBytes = 3 < 5 = TotalSize`; neither can step. -/
theorem two_files_deadlock :
    ∃ c s, mainEnumerate fsFiles 8 "/w" { conf0 ["f", "g", "out"] with BufSize := 2 } = some c ∧
      Reachable fsFiles "/w" (State.init c) s ∧
      s.rd.pc = RPc.recv ∧ s.rd.ll = 1 ∧ sel s.c.w2r s.rd.offset = 0 ∧
      s.wr.pc = WPc.loop ∧ s.c.CopiedBytes = 3 ∧ s.c.TotalSize = 5 ∧
      sel s.c.r2w s.wr.offset = 0 ∧
      readFilesStep fsFiles "/w" s = none ∧ writeFilesStep s = none := by
  refine ⟨(mainEnumerate fsFiles 8 "/w" { conf0 ["f", "g", "out"] with BufSize := 2 }).get
      (by decide), sched fsFiles "/w" 12 (State.init _), by simp, reachable_sched _ _ _ _, ?_⟩
  decide

/-- C3 (failing input): `acp e out` with `e` an empty regular file. The reader
returns having set `readlen[0] = -2` and changed `offset` to 1, without a
receive on `w2r` (both tokens are still there) and without a send on `r2w`. -/
theorem empty_file_no_handoff :
    ∃ s, copyRun fsFiles "/w" (conf0 ["e", "out"]) 10 = some s ∧
      s.rd.pc = RPc.done ∧ s.rd.offset = 1 ∧ s.rd.sent = [] ∧
      s.c.readlen = (-2, 0) ∧ s.c.bufferFileNo = (0, 0) ∧
      s.c.r2w = (0, 0) ∧ s.c.w2r = (1, 1) := by
  refine ⟨(copyRun fsFiles "/w" (conf0 ["e", "out"]) 10).get (by decide), by simp, ?_⟩
  decide

/-- C7 (failing input): the directory `a` given as `./a` with destination `b`.
The traversal visits `./a` and `a/x`; the entry of `a/x` gets the destination
`b/a/x`, while the same directory given as `a` gets `b/x`. Likewise the
working directory given as `.` with destination `/o`: the entry of `x.txt`
gets the destination `/o/xtxt`. -/
theorem walk_uncleaned_source_destination :
    (Walk fsDir 8 "/w" (CopyStruct.new (conf0 ["./a", "b"])) "./a" "b").map
        (fun c => c.Files.map files.summary)
      = some [("./a", "b", TypeDir), ("a/x", "b/a/x", TypeFile)] ∧
    (Walk fsDir 8 "/w" (CopyStruct.new (conf0 ["a", "b"])) "a" "b").map
        (fun c => c.Files.map files.summary)
      = some [("a", "b", TypeDir), ("a/x", "b/x", TypeFile)] ∧
    (Walk fsDot 8 "/v" (CopyStruct.new (conf0 [".", "/o"])) "." "/o").map
        (fun c => c.Files.map files.summary)
      = some [(".", "/o", TypeDir), ("x.txt", "/o/xtxt", TypeFile)] := by
  decide

/-- C8 (failing input): `acp l out` without `-l`, `l` a link to the directory
`d` that holds the link `m`. After the enumeration the entry of `m`, appended
while `l` was resolved, still has kind Link, and `writeFiles` creates a symlink
for it. -/
theorem walkSymlinks_link_remains :
    (mainEnumerate fsLinkDir 8 "/w" (conf0 ["l", "out"])).map
        (fun c => (c.Conf.PreserveSymlink, c.Files.map files.summary))
      = some (false, [("/w/d", "out/l", TypeDir), ("/w/d", "out/l", TypeDir),
          ("/w/d/g", "out/l/g", TypeFile), ("/w/d/m", "out/l/m", TypeLink)]) ∧
    (copyRun fsLinkDir "/w" (conf0 ["l", "out"]) 20).map (fun s => (s.wr.pc, s.events))
      = some (WPc.done, [Event.close none, Event.mkdirAll 0, Event.mkdirAll 1,
          Event.openFile 2, Event.write (some 2) [1, 2], Event.removeExisting 3,
          Event.symlink 3]) := by
  decide

/-- C9 (failing input): `acp f l out` with `f` a file of 3 bytes, `l` a link to
`f` and `out` absent. With `-l` the link stays a Link entry, `Concat` is false
and `TotalSize` is 3; without `-l` it is a File entry, `Concat` is true and
`TotalSize` is 6. -/
theorem preserveSymlink_two_sources_differ :
    (mainEnumerate fsFiles 8 "/w" { conf0 ["f", "l", "out"] with PreserveSymlink := true }).map
        (fun c => (c.Files.map files.summary, c.Concat, c.TotalSize))
      = some ([("f", "out", TypeFile), ("l", "out", TypeLink)], false, 3) ∧
    (mainEnumerate fsFiles 8 "/w" (conf0 ["f", "l", "out"])).map
        (fun c => (c.Files.map files.summary, c.Concat, c.TotalSize))
      = some ([("f", "out", TypeFile), ("/w/f", "out", TypeFile)], true, 6) := by
  decide

theorem opensAfterCreation_nil (Files : List files) : OpensAfterCreation Files [] := by
  intro pre k post h
  cases pre <;> simp at h

theorem opensAfterCreation_append {Files : List files} {ev extra : List Event}
    (h : OpensAfterCreation Files ev) (hx : ∀ k, Event.openFile k ∉ extra) :
    OpensAfterCreation Files (ev ++ extra) := by
  intro pre k post heq j hj
  rcases List.append_eq_append_iff.mp heq with ⟨a, hpre, hext⟩ | ⟨c, hev, hc⟩
  · exact absurd (by rw [hext]; simp) (hx k)
  · cases c with
    | nil =>
      simp only [List.nil_append] at hc
      exact absurd (by rw [← hc]; simp) (hx k)
    | cons x c =>
      simp only [List.cons_append, List.cons.injEq] at hc
      rw [← hc.1] at hev
      exact h pre k c hev j hj

theorem opensAfterCreation_open {Files : List files} {ev : List Event} {k : Nat}
    (h : OpensAfterCreation Files ev) (hk : ∀ j, j < k → Created Files ev j) :
    OpensAfterCreation Files (ev ++ [Event.openFile k]) := by
  intro pre k1 post heq j hj
  rcases List.append_eq_append_iff.mp heq with ⟨a, hpre, hext⟩ | ⟨c, hev, hc⟩
  · cases a with
    | nil =>
      simp only [List.nil_append, List.cons.injEq, Event.openFile.injEq] at hext
      simp only [List.append_nil] at hpre
      rw [hpre]; exact hk j (by omega)
    | cons x a =>
      simp only [List.cons_append, List.cons.injEq] at hext
      have := hext.2
      cases a <;> simp at this
  · cases c with
    | nil =>
      simp only [List.nil_append, List.cons.injEq, Event.openFile.injEq] at hc
      simp only [List.append_nil] at hev
      rw [← hev]; exact hk j (by omega)
    | cons x c =>
      simp only [List.cons_append, List.cons.injEq] at hc
      rw [← hc.1] at hev
      exact h pre k1 c hev j hj

theorem mem_between {ll : Int} {k j : Nat} (h1 : ll < j) (h2 : j < k) (h0 : -1 ≤ ll) :
    j ∈ between ll k := by
  unfold between
  rw [List.mem_range'_1]
  omega

theorem invO_turn {Files : List files} {ll : Int} {ev ev1 : List Event} {k : Nat}
    (hinv : InvO Files ll ev) (hk : IsFileIndex Files k)
    (hrel : TurnRel Files ll ev k ev1) : InvO Files k ev1 := by
  obtain ⟨a, b, o, e, ha, hb, he, ho, hev⟩ := hrel
  obtain ⟨hll, hcr, hgood⟩ := hinv
  have hge : -1 ≤ ll := by
    rcases hll with h | ⟨n, hn, _⟩ <;> omega
  have hcreated : ∀ j, j < k →
      Created Files (ev ++ a ++ matEvents Files (if ll = k then [] else between ll k) ++ b) j := by
    intro j hj
    by_cases h1 : (j : Int) < ll
    · have := hcr j h1
      simp only [List.append_assoc]
      exact this.mono _
    · by_cases h2 : (j : Int) = ll
      · rcases hll with h | ⟨n, hn, hfile⟩
        · omega
        · have : j = n := by omega
          subst this
          exact created_of_isFileIndex hfile _
      · have hne : ¬ ll = (k : Int) := by omega
        simp only [hne, if_false]
        have hmem : j ∈ between ll k := mem_between (by omega) hj hge
        exact ((created_matEvents Files _ j hmem).mono_right (ev ++ a)).mono b
  have hgood1 : OpensAfterCreation Files
      (ev ++ a ++ matEvents Files (if ll = k then [] else between ll k) ++ b) := by
    simp only [List.append_assoc]
    apply opensAfterCreation_append hgood
    intro k1 hmem
    simp only [List.mem_append] at hmem
    rcases hmem with h | h | h
    · exact openFile_not_mem_plain ha k1 h
    · exact openFile_not_mem_matEvents Files _ k1 h
    · exact openFile_not_mem_plain hb k1 h
  have hgood2 : OpensAfterCreation Files
      (ev ++ a ++ matEvents Files (if ll = k then [] else between ll k) ++ b ++ o) := by
    rcases ho with h | h
    · subst h; simpa using hgood1
    · subst h; exact opensAfterCreation_open hgood1 hcreated
  refine ⟨Or.inr ⟨k, rfl, hk⟩, ?_, ?_⟩
  · intro j hj
    rw [hev]
    have := hcreated j (by omega)
    simp only [List.append_assoc] at this ⊢
    have h2 := this.mono (o ++ e)
    simpa only [List.append_assoc] using h2
  · rw [hev]
    exact opensAfterCreation_append hgood2 (fun k1 => openFile_not_mem_plain he k1)

theorem invO_epilogue {Files : List files} (s : State) (hF : s.c.Files = Files)
    (hinv : InvO Files s.wr.ll s.events) :
    OpensAfterCreation Files (writerEpilogue s).events := by
  obtain ⟨e, he, hev⟩ := writerEpilogue_events s
  rw [hev, hF, List.append_assoc]
  apply opensAfterCreation_append hinv.2.2
  intro k hmem
  rcases List.mem_append.mp hmem with h | h
  · exact openFile_not_mem_matEvents Files _ k h
  · exact openFile_not_mem_plain he k h

theorem writeFilesOn_opens (Files : List files) :
    ∀ (hs : List Handoff) (s : State), s.c.Files = Files → s.wr.pc = WPc.loop →
      InvO Files s.wr.ll s.events →
      (∀ h ∈ hs, IsFileIndex Files h.fileNo) →
      OpensAfterCreation Files (writeFilesOn hs s).events := by
  intro hs
  induction hs with
  | nil =>
    intro s hF hpc hinv _
    unfold writeFilesOn
    split_ifs with hgt
    · exact hinv.2.2
    · exact invO_epilogue s hF hinv
  | cons h hs ih =>
    intro s hF hpc hinv hfile
    unfold writeFilesOn
    split_ifs with hgt
    · by_cases hz : h.readlen = 0
      · obtain ⟨hwr, hev, hFiles⟩ := writerTurn_zero h s hpc hz
        exact ih _ (hFiles.trans hF) (by rw [hwr]; exact hpc) (by rw [hwr, hev]; exact hinv)
          (fun x hx => hfile x (List.mem_cons_of_mem _ hx))
      · obtain ⟨hpc1, hFiles, hll, hrel⟩ := writerTurn_nonzero h s hz
        rw [hF] at hrel
        exact ih _ (hFiles.trans hF) hpc1
          (by rw [hll]; exact invO_turn hinv (hfile h (List.mem_cons_self _ _)) hrel)
          (fun x hx => hfile x (List.mem_cons_of_mem _ hx))
    · exact invO_epilogue s hF hinv

theorem writerTurn_bytes (h : Handoff) (s : State) (hpc : s.wr.pc = WPc.loop) :
    (writerTurn h s).wr.pc = WPc.loop ∧ (writerTurn h s).c.TotalSize = s.c.TotalSize ∧
      (writerTurn h s).c.CopiedBytes
        = if h.readlen = 0 then s.c.CopiedBytes else copiedAfter s.c.CopiedBytes h.readlen := by
  by_cases hz : h.readlen = 0
  · have h1 : sel (deliver h s).c.readlen (deliver h s).wr.offset = 0 := by
      simp only [deliver, sel_upd, hz]
    have h2 : writerRecv (deliver h s) = deliver h s := by
      unfold writerRecv; simp [h1]
    have h3 : (deliver h s).wr.pc ≠ WPc.send := by
      show s.wr.pc ≠ WPc.send
      rw [hpc]; decide
    unfold writerTurn
    simp only [h2, h3, if_false, hz, if_true]
    exact ⟨hpc, rfl, rfl⟩
  · have h1 : sel (deliver h s).c.readlen (deliver h s).wr.offset = h.readlen := by
      simp only [deliver, sel_upd]
    obtain ⟨_, r2, r3, _, _, r6⟩ := writerRecv_nonzero (deliver h s) (by rw [h1]; exact hz)
    unfold writerTurn
    simp only [r6, if_true, hz, if_false]
    refine ⟨rfl, ?_, ?_⟩
    · show (writerRecv (deliver h s)).c.TotalSize = _
      rw [r2]; rfl
    · show (writerRecv (deliver h s)).c.CopiedBytes = _
      rw [r3, h1]; rfl

theorem written_nonneg {n : Int} (h : OkLen n) : 0 ≤ written n := by
  rw [written_eq_max h]; omega

theorem sum_written_nonneg (hs : List Handoff) (hok : ∀ h ∈ hs, OkLen h.readlen) :
    0 ≤ (hs.map (fun h => written h.readlen)).sum := by
  induction hs with
  | nil => simp
  | cons h hs ih =>
    simp only [List.map_cons, List.sum_cons]
    have h1 := written_nonneg (hok h (List.mem_cons_self _ _))
    have h2 := ih (fun x hx => hok x (List.mem_cons_of_mem _ hx))
    omega

/-- The writer returns when the handoffs carry at least the bytes still to
copy and their sum stays in the range of `int64`. -/
theorem writeFilesOn_returns :
    ∀ (hs : List Handoff) (s : State), s.wr.pc = WPc.loop → 0 ≤ s.c.CopiedBytes →
      (∀ h ∈ hs, OkLen h.readlen) →
      s.c.CopiedBytes + (hs.map (fun h => written h.readlen)).sum < 9223372036854775808 →
      s.c.TotalSize ≤ s.c.CopiedBytes + (hs.map (fun h => written h.readlen)).sum →
      (writeFilesOn hs s).wr.pc = WPc.done := by
  intro hs
  induction hs with
  | nil =>
    intro s _ _ _ _ hle
    unfold writeFilesOn
    have : ¬ s.c.TotalSize > s.c.CopiedBytes := by simpa using hle
    simp only [this, if_false]
    rfl
  | cons h hs ih =>
    intro s hpc h0 hok hfit hle
    unfold writeFilesOn
    split_ifs with hgt
    · obtain ⟨b1, b2, b3⟩ := writerTurn_bytes h s hpc
      simp only [List.map_cons, List.sum_cons] at hle hfit
      have hokh := hok h (List.mem_cons_self _ _)
      have hrest := sum_written_nonneg hs (fun x hx => hok x (List.mem_cons_of_mem _ hx))
      have hw := written_eq_max hokh
      have hb : (writerTurn h s).c.CopiedBytes = s.c.CopiedBytes + written h.readlen := by
        rw [b3]
        by_cases hz : h.readlen = 0
        · simp [hz, written]
        · simp only [hz, if_false]
          rw [copiedAfter_eq hokh h0 (le_refl _) (by omega), hw]
      apply ih _ b1 (by rw [hb]; omega) (fun x hx => hok x (List.mem_cons_of_mem _ hx))
      · rw [hb]; omega
      · rw [b2, hb]; omega
    · rfl

/-- C6. For every work list and every sequence of handoffs the writer receives
for File entries: whenever `writeFiles` opens the destination of the entry at
index `k`, every Dir entry with a smaller index has had its `MkdirAll` and every
Link entry with a smaller index its `Symlink` before that call. -/
theorem writeFiles_creates_before_open (c : CopyStruct) (hs : List Handoff)
    (hfile : ∀ h ∈ hs, IsFileIndex c.Files h.fileNo)
    (pre post : List Event) (k : Nat)
    (hopen : (writeFilesOn hs (State.init c)).events = pre ++ Event.openFile k :: post)
    (j : Nat) (hj : j < k) : Created c.Files pre j :=
  writeFilesOn_opens c.Files hs (State.init c) rfl rfl
    ⟨Or.inl rfl, fun j hj => absurd hj (by show ¬ ((j : Int) < -1); omega),
      opensAfterCreation_nil _⟩ hfile pre k post hopen j hj

theorem writeFiles_creates_before_open_witness :
    Created sampleCopy.Files
      [Event.close none, Event.mkdirAll 0, Event.openFile 1, Event.write (some 1) [7, 8],
        Event.close (some 1), Event.removeExisting 2, Event.symlink 2] 2 :=
  writeFiles_creates_before_open sampleCopy sampleHandoffs (by decide)
    [Event.close none, Event.mkdirAll 0, Event.openFile 1, Event.write (some 1) [7, 8],
      Event.close (some 1), Event.removeExisting 2, Event.symlink 2] [Event.write (some 3) [9, 9], Event.mkdirAll 4] 3
    (by decide) 2 (by decide)

/-- C10. For every work list and every sequence of handoffs for File entries
with non-decreasing indices: when `writeFiles` has returned, the `MkdirAll` and
`Symlink` calls it made are, in this order, one call for each Dir entry and
each Link entry of the work list, of the kind of the entry, and none for a
File entry. -/
theorem writeFiles_materializes_once (c : CopyStruct) (hs : List Handoff)
    (hfile : ∀ h ∈ hs, IsFileIndex c.Files h.fileNo)
    (hsorted : hs.Pairwise (fun a b => a.fileNo ≤ b.fileNo))
    (hdone : (writeFilesOn hs (State.init c)).wr.pc = WPc.done) :
    materialized (writeFilesOn hs (State.init c)).events
      = nonFiles c.Files (List.range c.Files.length) :=
  writeFilesOn_materialized c.Files hs (State.init c) rfl rfl
    ⟨Or.inl rfl, by simp [State.init, materialized, nonFiles]⟩ hfile
    (fun h _ => by show (-1 : Int) ≤ h.fileNo; omega) hsorted hdone

theorem writeFiles_materializes_once_witness :
    materialized (writeFilesOn sampleHandoffs (State.init sampleCopy)).events
      = [(0, TypeDir), (2, TypeLink), (4, TypeDir)] :=
  writeFiles_materializes_once sampleCopy sampleHandoffs (by decide) (by decide) (by decide)

/-- C4 (counterexample): `acp big big out` with `big` a regular file of 2^62
bytes, which delivers 2^62 bytes on reading, and `out` absent. The two
additions of line 175 wrap: `TotalSize` is -2^63 while the sizes of the two
File entries sum to 2^63. `writeFiles` finds its loop condition false and
returns at once, with `CopiedBytes = 0`, which exceeds `TotalSize` and is not
the sum of the sizes. -/
theorem copiedBytes_exceeds_wrapped_totalSize :
    ∃ c s, mainEnumerate fsSparse 8 "/w" (conf0 ["big", "big", "out"]) = some c ∧
      SizesAsRecorded fsSparse "/w" c.Files ∧
      Reachable fsSparse "/w" (State.init c) s ∧ s.wr.pc = WPc.done ∧
      s.c.TotalSize = -9223372036854775808 ∧ s.c.CopiedBytes = 0 ∧
      sumSizes c.Files = 9223372036854775808 ∧
      ¬ (s.c.CopiedBytes ≤ s.c.TotalSize) ∧ ¬ (s.c.CopiedBytes = sumSizes c.Files) := by
  have hsrc : ∀ f ∈ ((mainEnumerate fsSparse 8 "/w" (conf0 ["big", "big", "out"])).get
      (by decide)).Files, f.Source = "big" ∧ fileSize f = 4611686018427387904 := by decide
  have hbig : ((fsSparse.readFile "/w" "big").length : Int) = 4611686018427387904 := by
    have hp : Abs "/w" "big" = "/w/big" := by decide
    show ((if Abs "/w" "big" = "/w/big" then List.replicate 4611686018427387904 0
      else []).length : Int) = _
    rw [if_pos hp, List.length_replicate]
    rfl
  refine ⟨(mainEnumerate fsSparse 8 "/w" (conf0 ["big", "big", "out"])).get (by decide),
    writerEpilogue (State.init
      ((mainEnumerate fsSparse 8 "/w" (conf0 ["big", "big", "out"])).get (by decide))),
    by simp, ?_, Reachable.step Reachable.refl (Or.inr (by decide)), ?_⟩
  · intro f hf _
    obtain ⟨h1, h2⟩ := hsrc f hf
    rw [h1, h2]
    exact hbig
  · decide

/-- C4 (amended). After the enumeration of `main`, if the sizes of the File
entries sum to less than 2^63 and every File entry delivers on reading as many
bytes as were recorded for it, then in every state the two goroutines can
reach `CopiedBytes` is at most `TotalSize`, and once `writeFiles` has returned
`CopiedBytes` is the sum of the sizes of the File entries (for an entry made
from a link, the size of its terminal target). -/
theorem copiedBytes_le_totalSize (fs : FileSystem) (fuel : Nat) (wd : String) (conf : Config)
    (c : CopyStruct) (henum : mainEnumerate fs fuel wd conf = some c)
    (hfit : sumSizes c.Files < 9223372036854775808)
    (hread : SizesAsRecorded fs wd c.Files) (s : State)
    (hreach : Reachable fs wd (State.init c) s) :
    s.c.CopiedBytes ≤ s.c.TotalSize ∧
      (s.wr.pc = WPc.done → s.c.CopiedBytes = sumSizes c.Files) := by
  obtain ⟨e1, e2, e3, _⟩ := mainEnumerate_spec henum
  have hnn := sumSizes_nonneg c.Files
  have e1' : c.TotalSize = sumSizes c.Files := by
    rw [e1]; exact int64_eq_self (by unfold InInt64; omega)
  obtain ⟨_, hT, hsum, _, _, _, _, hdone⟩ :=
    reachable_inv hread (pipeInv_init e1' e2 e3 (by rw [e1']; exact hfit)) hreach
  have h1 := inflight_nonneg s.c.readlen
  have h2 := pending_nonneg s
  constructor
  · rw [hT]; omega
  · intro hd
    have := hdone hd
    rw [← e1']; omega

theorem copiedBytes_le_totalSize_witness :
    ∃ c s, mainEnumerate fsFiles 8 "/w" { conf0 ["l", "out"] with BufSize := 2 } = some c ∧
      s = sched fsFiles "/w" 12 (State.init c) ∧ s.wr.pc = WPc.done ∧
      s.c.CopiedBytes ≤ s.c.TotalSize ∧
      (s.wr.pc = WPc.done → s.c.CopiedBytes = sumSizes c.Files) ∧ sumSizes c.Files = 3 :=
  ⟨(mainEnumerate fsFiles 8 "/w" { conf0 ["l", "out"] with BufSize := 2 }).get (by decide),
    _, by simp, rfl, by decide,
    (copiedBytes_le_totalSize fsFiles 8 "/w" { conf0 ["l", "out"] with BufSize := 2 } _
      (by simp) (by decide) (by decide) _ (reachable_sched _ _ _ _)).1,
    (copiedBytes_le_totalSize fsFiles 8 "/w" { conf0 ["l", "out"] with BufSize := 2 } _
      (by simp) (by decide) (by decide) _ (reachable_sched _ _ _ _)).2, by decide⟩

/-- C5. After the enumeration of `main` (`Walk` on every source, `WalkSymlinks`
unless `PreserveSymlink`, the `Stat` of the destination), `Concat` is true
exactly when every entry of the work list has kind File and the `Stat` of the
destination fails or reports a regular file. -/
theorem mainEnumerate_concat_iff (fs : FileSystem) (fuel : Nat) (wd : String) (conf : Config)
    (c : CopyStruct) (henum : mainEnumerate fs fuel wd conf = some c) :
    c.Concat = true ↔ (∀ f ∈ c.Files, f.Typ = TypeFile) ∧
      (fs.stat wd (destArg conf.Files.tail) = none ∨
        ∃ st, fs.stat wd (destArg conf.Files.tail) = some st ∧ st.IsRegular = true) :=
  (mainEnumerate_spec henum).2.2.2

theorem mainEnumerate_concat_iff_witness :
    ∃ c, mainEnumerate fsFiles 8 "/w" (conf0 ["f", "l", "g"]) = some c ∧
      c.Files.map files.summary = [("f", "g", TypeFile), ("/w/f", "g", TypeFile)] ∧
      (c.Concat = true ↔ (∀ f ∈ c.Files, f.Typ = TypeFile) ∧
        (fsFiles.stat "/w" "g" = none ∨
          ∃ st, fsFiles.stat "/w" "g" = some st ∧ st.IsRegular = true)) :=
  ⟨(mainEnumerate fsFiles 8 "/w" (conf0 ["f", "l", "g"])).get (by decide), by simp, by decide,
    mainEnumerate_concat_iff fsFiles 8 "/w" (conf0 ["f", "l", "g"]) _ (by simp)⟩

end Acp
